import Mathlib

/-!
# Verification development for the exercise programs

A shallow embedding of the C++ exercise programs and the theorems that settle
the specification's claims about them.

Conventions of the embedding

* `Option` models a computation that may leave defined behaviour: `none` stands
  for an out-of-range element access or a signed `int` overflow.
* A C++ `int` is a Lean `Int` kept inside `[INT_MIN, INT_MAX]` by `checked`.
* A C++ `char` is a Lean `Char`; a `std::string` is a `List Char`.
* A pointer into an array is the `Int` offset from the array's first element.
* A `double` is a `Double`: a finite rational, an infinity or a NaN, and every
  operation on it rounds its exact result to binary64 (`Double.round`).  The
  polymorphism demo alone writes the bodies of the overriding `area` functions
  over exact rationals; what its `main` prints is the constant 0 of
  `Shape::area`.

Definitions come first, one namespace per source file, then the theorems.
-/

/-! ## Machine integers -/

/-- Largest value of a 32-bit `int`. -/
def INT_MAX : Int := 2147483647

/-- Smallest value of a 32-bit `int`. -/
def INT_MIN : Int := -2147483648

/-- Whether `v` is representable as an `int`. -/
def inInt (v : Int) : Prop := INT_MIN ≤ v ∧ v ≤ INT_MAX

instance (v : Int) : Decidable (inInt v) := by
  unfold inInt
  exact inferInstance

/-- Result of a signed `int` operation whose exact value is `v`: defined only
when `v` is representable. -/
def checked (v : Int) : Option Int :=
  if inInt v then some v else none

/-- Conversion of a `size_t` value to `int` (`int total = line.size()`):
reduction modulo `2^32` into the signed range. -/
def sizeToInt (n : Nat) : Int :=
  ((n : Int) + 2147483648) % 4294967296 - 2147483648

/-! ## Binary64 floating point -/

/-- The floor of the base-2 logarithm of `n` (0 for `n < 2`), by halving; the
first argument bounds the number of halvings and is given as `n` itself. -/
def log2Floor : Nat → Nat → Nat
  | 0, _ => 0
  | fuel + 1, n => if n < 2 then 0 else log2Floor fuel (n / 2) + 1

/-- The exponent `e` with `2^e ≤ num/den < 2^(e+1)`, for positive `num`, `den`. -/
def floorLog2 (num den : Nat) : Int :=
  let e0 : Int := (log2Floor num num : Int) - (log2Floor den den : Int)
  if den * 2 ^ e0.toNat ≤ num * 2 ^ (-e0).toNat then e0 else e0 - 1

/-- The integer nearest to `num/den`, the even one of the two on a tie. -/
def roundEven (num den : Nat) : Nat :=
  let q := num / den
  let r := num % den
  if 2 * r < den then q
  else if den < 2 * r then q + 1
  else if q % 2 = 0 then q else q + 1

/-- A value of type `double` (IEEE 754 binary64): a finite number, an
infinity or a NaN.  The embedding keeps one zero, standing for `+0`. -/
inductive Double where
  | finite (q : Rat)
  | posInf
  | negInf
  | nan
  deriving DecidableEq, Repr

/-- Rounding of the exact value `x` to binary64, to nearest with ties to even:
53 significant bits, least exponent -1022 with gradual underflow, and an
infinity when the rounded magnitude reaches `2^1024`. -/
def Double.round (x : Rat) : Double :=
  if x = 0 then .finite 0
  else
    let e := max (floorLog2 x.num.natAbs x.den) (-1022)
    let k := e - 52
    let n := roundEven (x.num.natAbs * 2 ^ (-k).toNat) (x.den * 2 ^ k.toNat)
    if 2 ^ 1024 * 2 ^ (-k).toNat ≤ n * 2 ^ k.toNat then
      (if x < 0 then .negInf else .posInf)
    else
      .finite (if x < 0 then -(mkRat (n * 2 ^ k.toNat) (2 ^ (-k).toNat))
        else mkRat (n * 2 ^ k.toNat) (2 ^ (-k).toNat))

/-- A decimal floating literal of the source, such as `85.5`: the binary64
value nearest to it. -/
def Double.lit (q : Rat) : Double := Double.round q

/-- Conversion of a `size_t` value to `double`. -/
def Double.ofNat (n : Nat) : Double := Double.round n

/-- Conversion of an `int` value to `double`. -/
def Double.ofInt (n : Int) : Double := Double.round n

/-- The operator `+` on `double`: the exact sum rounded. -/
def Double.add : Double → Double → Double
  | .finite a, .finite b => Double.round (a + b)
  | .finite _, .posInf => .posInf
  | .finite _, .negInf => .negInf
  | .posInf, .finite _ => .posInf
  | .posInf, .posInf => .posInf
  | .negInf, .finite _ => .negInf
  | .negInf, .negInf => .negInf
  | _, _ => .nan

/-- The operator `/` on `double`: the exact quotient rounded; a zero divisor
counts as `+0`. -/
def Double.div : Double → Double → Double
  | .finite a, .finite b =>
    if b = 0 then (if a = 0 then .nan else if a < 0 then .negInf else .posInf)
    else Double.round (a / b)
  | .finite _, .posInf => .finite 0
  | .finite _, .negInf => .finite 0
  | .posInf, .finite b => if b < 0 then .negInf else .posInf
  | .negInf, .finite b => if b < 0 then .posInf else .negInf
  | _, _ => .nan

/-- The operator `>` on `double`: false whenever an operand is a NaN. -/
def Double.gt : Double → Double → Bool
  | .finite a, .finite b => decide (a > b)
  | .finite _, .negInf => true
  | .posInf, .finite _ => true
  | .posInf, .negInf => true
  | _, _ => false

/-- Whether the rational `q` is a binary64 value: rounding leaves it as it is. -/
def isBinary64 (q : Rat) : Prop := Double.round q = Double.finite q

instance (q : Rat) : Decidable (isBinary64 q) := by
  unfold isBinary64
  exact inferInstance

/-- Whether every running sum of `l`, taken from the left, is a binary64
value, so that adding up `l` in binary64 rounds nowhere. -/
def exactSums (l : List Rat) : Prop :=
  ∀ n : Nat, n ≤ l.length → isBinary64 ((l.take n).sum)

instance (l : List Rat) : Decidable (exactSums l) := by
  unfold exactSums
  exact inferInstance

/-! ## `CodeCourse/polymorphism.cpp` -/

namespace Polymorphism

/-- An object created by `new`: its most-derived class with its data members. -/
inductive Object where
  | shape
  | rectangle (width height : Rat)
  | circle (radius : Rat)
  deriving DecidableEq, Repr

/-- Member function `Shape::area()`: `return 0;`. -/
def Shape.area (_self : Object) : Rat := 0

/-- Member function `Rectangle::area()`: `return width * height;`. -/
def Rectangle.area (width height : Rat) : Rat := width * height

/-- Member function `Circle::area()`: `return 3.14159 * radius * radius;`. -/
def Circle.area (radius : Rat) : Rat := 3.14159 * radius * radius

/-- The call `p->area()` for `p` of static type `Shape*`.  `Shape::area` is not
declared `virtual`, so the call is bound at compile time to `Shape::area`,
whatever the class of the object `p` points at. -/
def callAreaViaShapePtr (obj : Object) : Rat := Shape.area obj

/-- The call `r.area()` on an expression of static type `Rectangle`. -/
def callAreaViaRectangle : Object → Option Rat
  | .rectangle w h => some (Rectangle.area w h)
  | _ => none

/-- The call `c.area()` on an expression of static type `Circle`. -/
def callAreaViaCircle : Object → Option Rat
  | .circle r => some (Circle.area r)
  | _ => none

/-- The object of `Shape* shape1 = new Rectangle(5.0, 3.0);`. -/
def shape1 : Object := .rectangle 5 3

/-- The object of `Shape* shape2 = new Circle(4.0);`. -/
def shape2 : Object := .circle 4

/-- The two numbers `main` prints: `shape1->area()` and `shape2->area()`. -/
def main : Rat × Rat := (callAreaViaShapePtr shape1, callAreaViaShapePtr shape2)

end Polymorphism

/-! ## `CodeCourse/SomeArth.cpp` -/

namespace SomeArth

/-- The read `*ptr` where `ptr` is `a + i`: defined only inside the array. -/
def readAt (a : List Int) (i : Int) : Option Int :=
  if 0 ≤ i ∧ i < a.length then a[i.toNat]? else none

/-- The write `*ptr = v` where `ptr` is `a + i`: defined only inside the array. -/
def writeAt (a : List Int) (i : Int) (v : Int) : Option (List Int) :=
  if 0 ≤ i ∧ i < a.length then some (a.set i.toNat v) else none

/-- The loop `for (int* ptr = a; ptr < a + 8; ++ptr) sum += *ptr;` from the state
`(ptr, sum)`. -/
def sumLoop (a : List Int) (ptr : Int) (sum : Int) : Option Int :=
  if ptr < 8 then
    match readAt a ptr with
    | none => none
    | some v =>
      match checked (sum + v) with
      | none => none
      | some s => sumLoop a (ptr + 1) s
  else some sum
termination_by (8 - ptr).toNat
decreasing_by omega

/-- The loop `for (int *left = a, *right = a + 7; left < right; left++, --right)` with
the three-statement swap as body, from the state `(a, left, right)`.  The last
argument counts the swaps done so far (not a program variable). -/
def reverseLoop (a : List Int) (left right : Int) (swaps : Nat) :
    Option (List Int × Nat) :=
  if left < right then
    match readAt a left with
    | none => none
    | some tmp =>
      match readAt a right with
      | none => none
      | some r =>
        match writeAt a left r with
        | none => none
        | some a1 =>
          match writeAt a1 right tmp with
          | none => none
          | some a2 => reverseLoop a2 (left + 1) (right - 1) (swaps + 1)
  else some (a, swaps)
termination_by (right - left).toNat
decreasing_by omega

/-- The loop `for (int* ptr = a + 2; ptr < a + 6; ++ptr) *ptr = 0;` from the state
`(a, ptr)`.  The last argument lists the offsets written so far (not a program
variable). -/
def zeroLoop (a : List Int) (ptr : Int) (written : List Int) :
    Option (List Int × List Int) :=
  if ptr < 6 then
    match writeAt a ptr 0 with
    | none => none
    | some a1 => zeroLoop a1 (ptr + 1) (written ++ [ptr])
  else some (a, written)
termination_by (6 - ptr).toNat
decreasing_by omega

/-- The loop `for (int* ptr = a; ptr < a + 8; ++ptr) cout << *ptr << " ";` from the
state `(ptr, numbers printed so far)`. -/
def printLoop (a : List Int) (ptr : Int) (out : List Int) : Option (List Int) :=
  if ptr < 8 then
    match readAt a ptr with
    | none => none
    | some v => printLoop a (ptr + 1) (out ++ [v])
  else some out
termination_by (8 - ptr).toNat
decreasing_by omega

/-- What one run of the program computes. -/
structure Run where
  /-- The value printed after `Sum = `. -/
  sum : Int
  /-- The array after the reversal loop. -/
  reversed : List Int
  /-- Number of swaps the reversal loop made. -/
  swaps : Nat
  /-- The array after the zeroing loop. -/
  final : List Int
  /-- Offsets written by the zeroing loop, in order. -/
  zeroed : List Int
  /-- The numbers printed after `Array = `. -/
  printed : List Int
  deriving DecidableEq, Repr

/-- The body of `main` run on an array `a` in place of the literal. -/
def run (a : List Int) : Option Run :=
  match sumLoop a 0 0 with
  | none => none
  | some sum =>
    match reverseLoop a 0 7 0 with
    | none => none
    | some (a1, swaps) =>
      match zeroLoop a1 2 [] with
      | none => none
      | some (a2, zeroed) =>
        match printLoop a2 0 [] with
        | none => none
        | some printed => some ⟨sum, a1, swaps, a2, zeroed, printed⟩

/-- The array `int a[8] = { 1,2,3,4,5,6,7,8 };`. -/
def a : List Int := [1, 2, 3, 4, 5, 6, 7, 8]

/-- The program: `run` on the literal array. -/
def main : Option Run := run a

end SomeArth

/-! ## `codeExam/read_eight_worlds_with_iterator/iter.cpp` -/

namespace Iter

/-- The loop `while (cin >> word && word.length() >= 8) valid_words.push_back(word);`
from the state (tokens still on standard input, `valid_words`).  `cin >> word`
extracts the next whitespace-delimited token and fails when none is left. -/
def readLoop : List (List Char) → List (List Char) → List (List Char)
  | [], valid_words => valid_words
  | word :: rest, valid_words =>
    if word.length ≥ 8 then readLoop rest (valid_words ++ [word])
    else valid_words

/-- The iterator loop `for (auto it = valid_words.begin(); it != valid_words.end(); ++it)`
printing `*it`: the lines printed, in order. -/
def printLoop : List (List Char) → List (List Char)
  | [] => []
  | word :: rest => word :: printLoop rest

/-- The program on the token sequence of its input: the words printed after
the header line. -/
def main (tokens : List (List Char)) : List (List Char) :=
  printLoop (readLoop tokens [])

end Iter

/-! ## `CodeCourse/vec_cal.cpp` -/

namespace VecCal

/-- A `vector<vector<int>>`: the list of its rows. -/
abbrev Matrix := List (List Int)

/-- The read `M[i][j]`: defined only inside the vectors. -/
def get2 (M : Matrix) (i j : Nat) : Option Int :=
  match M[i]? with
  | none => none
  | some row => row[j]?

/-- The write `M[i][j] = v`: defined only inside the vectors. -/
def set2 (M : Matrix) (i j : Nat) (v : Int) : Option Matrix :=
  match M[i]? with
  | none => none
  | some row => if j < row.length then some (M.set i (row.set j v)) else none

/-- The loop `for (int j = 0; j < 3; ++j) C[i][j] = A[i][j] + B[i][j];` from the state
`(C, j)`. -/
def addLoopJ (A B : Matrix) (i : Nat) (C : Matrix) (j : Nat) : Option Matrix :=
  if j < 3 then
    match get2 A i j with
    | none => none
    | some x =>
      match get2 B i j with
      | none => none
      | some y =>
        match checked (x + y) with
        | none => none
        | some s =>
          match set2 C i j s with
          | none => none
          | some C1 => addLoopJ A B i C1 (j + 1)
  else some C
termination_by 3 - j
decreasing_by omega

/-- The loop `for (int i = 0; i < 2; ++i)` around the `j` loop, from the state `(C, i)`. -/
def addLoopI (A B : Matrix) (C : Matrix) (i : Nat) : Option Matrix :=
  if i < 2 then
    match addLoopJ A B i C 0 with
    | none => none
    | some C1 => addLoopI A B C1 (i + 1)
  else some C
termination_by 2 - i
decreasing_by omega

/-- The loop `for (int k = 0; k < 3; ++k) result[i][j] += A[i][k] * D[k][j];` from the
state `(result, k)`. -/
def mulLoopK (A D : Matrix) (i j : Nat) (result : Matrix) (k : Nat) : Option Matrix :=
  if k < 3 then
    match get2 A i k with
    | none => none
    | some x =>
      match get2 D k j with
      | none => none
      | some y =>
        match checked (x * y) with
        | none => none
        | some p =>
          match get2 result i j with
          | none => none
          | some r =>
            match checked (r + p) with
            | none => none
            | some s =>
              match set2 result i j s with
              | none => none
              | some result1 => mulLoopK A D i j result1 (k + 1)
  else some result
termination_by 3 - k
decreasing_by omega

/-- The loop `for (int j = 0; j < 2; ++j)` around the `k` loop, from the state
`(result, j)`. -/
def mulLoopJ (A D : Matrix) (i : Nat) (result : Matrix) (j : Nat) : Option Matrix :=
  if j < 2 then
    match mulLoopK A D i j result 0 with
    | none => none
    | some result1 => mulLoopJ A D i result1 (j + 1)
  else some result
termination_by 2 - j
decreasing_by omega

/-- The loop `for (int i = 0; i < 2; ++i)` around the `j` loop, from the state
`(result, i)`. -/
def mulLoopI (A D : Matrix) (result : Matrix) (i : Nat) : Option Matrix :=
  if i < 2 then
    match mulLoopJ A D i result 0 with
    | none => none
    | some result1 => mulLoopI A D result1 (i + 1)
  else some result
termination_by 2 - i
decreasing_by omega

/-- The addition part of `main` on matrices `A`, `B` in place of the literals:
`vector<vector<int>> C(2, vector<int>(3));` then the two loops; the value is `C`. -/
def addition (A B : Matrix) : Option Matrix :=
  addLoopI A B (List.replicate 2 (List.replicate 3 0)) 0

/-- The product part of `main` on matrices `A`, `D` in place of the literals:
`vector<vector<int>> result(2, vector<int>(2, 0));`, the three loops, then
`D = result;`; the value is `D` after the assignment. -/
def product (A D : Matrix) : Option Matrix :=
  match mulLoopI A D (List.replicate 2 (List.replicate 2 0)) 0 with
  | none => none
  | some result => some result

/-- The entry `M[i][j]` as a number, 0 outside the matrix; used to state
results, never by the program. -/
def entry (M : Matrix) (i j : Nat) : Int := (M.getD i []).getD j 0

/-- Matrix `M` has `r` rows of `c` entries each. -/
def hasShape (M : Matrix) (r c : Nat) : Prop :=
  M.length = r ∧ ∀ row ∈ M, row.length = c

instance (M : Matrix) (r c : Nat) : Decidable (hasShape M r c) := by
  unfold hasShape
  exact inferInstance

/-- The literal `A`. -/
def A : Matrix := [[1, 2, 3], [4, 5, 6]]

/-- The literal `B`. -/
def B : Matrix := [[7, 8, 9], [10, 11, 12]]

/-- The literal `D`. -/
def D : Matrix := [[1, 2], [3, 4], [5, 6]]

/-- The program: the matrices printed as `C` and as `D`. -/
def main : Option (Matrix × Matrix) :=
  match addition A B with
  | none => none
  | some C =>
    match product A D with
    | none => none
    | some D1 => some (C, D1)

end VecCal

/-! ## `CodeCourse/inputManage.cpp` -/

namespace InputManage

/-- Library function `std::isalpha` in the default "C" locale: the 52 ASCII letters. -/
def isalpha (c : Char) : Bool :=
  (65 ≤ c.toNat && c.toNat ≤ 90) || (97 ≤ c.toNat && c.toNat ≤ 122)

/-- Library function `std::isdigit`: the ten ASCII digits. -/
def isdigit (c : Char) : Bool :=
  48 ≤ c.toNat && c.toNat ≤ 57

/-- Library function `std::isspace` in the default "C" locale: space, `\t`, `\n`, `\v`, `\f`, `\r`. -/
def isspace (c : Char) : Bool :=
  c.toNat = 32 || (9 ≤ c.toNat && c.toNat ≤ 13)

/-- The three counters of the counting loop. -/
structure Counts where
  letters : Int
  digits : Int
  spaces : Int
  deriving DecidableEq, Repr

/-- The counting loop `for (char c : line)` with its `if / else if / else if`
body, from the state (characters still to visit, counters). -/
def countLoop : List Char → Counts → Option Counts
  | [], k => some k
  | c :: rest, k =>
    if isalpha c then
      match checked (k.letters + 1) with
      | none => none
      | some v => countLoop rest { k with letters := v }
    else if isdigit c then
      match checked (k.digits + 1) with
      | none => none
      | some v => countLoop rest { k with digits := v }
    else if isspace c then
      match checked (k.spaces + 1) with
      | none => none
      | some v => countLoop rest { k with spaces := v }
    else countLoop rest k

/-- Step 1, `for (char &c : line) if (c == ',') c = ' ';`: the line afterwards. -/
def commaLoop : List Char → List Char
  | [] => []
  | c :: rest => (if c = ',' then ' ' else c) :: commaLoop rest

/-- Step 2, the loop building `cleaned`, from the state (characters still to
visit, `cleaned`, `in_space`). -/
def collapseLoop : List Char → List Char → Bool → List Char
  | [], cleaned, _ => cleaned
  | c :: rest, cleaned, in_space =>
    if isspace c then
      if !in_space then collapseLoop rest (cleaned ++ [' ']) true
      else collapseLoop rest cleaned in_space
    else collapseLoop rest (cleaned ++ [c]) false

/-- The statement
`if (!cleaned.empty() && cleaned.front() == ' ') cleaned.erase(cleaned.begin());`. -/
def stripFront (cleaned : List Char) : List Char :=
  match cleaned with
  | [] => []
  | c :: rest => if c = ' ' then rest else c :: rest

/-- The statement `if (!cleaned.empty() && cleaned.back() == ' ') cleaned.pop_back();`. -/
def stripBack (cleaned : List Char) : List Char :=
  if !cleaned.isEmpty && cleaned.getLast? = some ' ' then cleaned.dropLast
  else cleaned

/-- The cleaning steps of `main`: the text printed after `Final line: `. -/
def clean (line : List Char) : List Char :=
  stripBack (stripFront (collapseLoop (commaLoop line) [] false))

/-- What the program prints. -/
structure Report where
  total : Int
  letters : Int
  digits : Int
  spaces : Int
  cleaned : List Char
  deriving DecidableEq, Repr

/-- The program on the line read by `std::getline`. -/
def main (line : List Char) : Option Report :=
  match countLoop line ⟨0, 0, 0⟩ with
  | none => none
  | some k => some ⟨sizeToInt line.length, k.letters, k.digits, k.spaces, clean line⟩

end InputManage

/-! ## `CodeCourse/codeExam/stringEdit/string_edit.cpp` -/

namespace StringEdit

/-- The loop of `modifyString`, `for (size_t i = 0; i < s.length(); ++i)`, from
the state `(s, i)`; `s[i]` is defined only inside the string. -/
def modifyStringLoop (s : List Char) (i : Nat) : Option (List Char) :=
  if i < s.length then
    match s[i]? with
    | none => none
    | some c =>
      if c = 'r' ∨ c = 'a' ∨ c = 'y' then modifyStringLoop (s.set i 'R') (i + 1)
      else modifyStringLoop s (i + 1)
  else some s
termination_by s.length - i
decreasing_by
  all_goals simp_wf
  all_goals omega

/-- The function `modifyString`: the content of `s` on return. -/
def modifyString (s : List Char) : Option (List Char) :=
  modifyStringLoop s 0

/-- The literal `"vector_and_arrays"`. -/
def literal : List Char := "vector_and_arrays".toList

end StringEdit

namespace StringEdit

/-- The call `isalpha(s[i])` on a plain `char`.  The C function takes an `int`
that must be representable as `unsigned char`; a plain `char` is so on every
platform exactly in the ASCII range, where the "C" locale answers with the 52
letters. -/
def isalphaOfChar (c : Char) : Option Bool :=
  if c.toNat < 128 then some (InputManage.isalpha c) else none

/-- The loop of `modifyX`, `for (size_t i = 0; i < s.length(); ++i)`, from the
state `(s, i)`. -/
def modifyXLoop (s : List Char) (i : Nat) : Option (List Char) :=
  if i < s.length then
    match s[i]? with
    | none => none
    | some c =>
      match isalphaOfChar c with
      | none => none
      | some true => modifyXLoop (s.set i 'X') (i + 1)
      | some false => modifyXLoop s (i + 1)
  else some s
termination_by s.length - i
decreasing_by
  all_goals simp_wf
  all_goals omega

/-- The function `modifyX`: the content of `s` on return. -/
def modifyX (s : List Char) : Option (List Char) :=
  modifyXLoop s 0

end StringEdit

/-! ## `OOP/Student/student.cpp` -/

namespace StudentReport

/-- The class `Student`: its three data members. -/
structure Student where
  name_ : List Char
  id_ : Int
  scores_ : List Double
  deriving DecidableEq, Repr

/-- The constructor `Student(name, id)`: `scores_` starts empty. -/
def Student.new (name : List Char) (id : Int) : Student :=
  ⟨name, id, []⟩

/-- The call `std::accumulate(first, last, init)`: a left fold with the
`double` operator `+`. -/
def accumulate : List Double → Double → Double
  | [], init => init
  | x :: rest, init => accumulate rest (Double.add init x)

/-- The division `sum / scores_.size()`, the size converted to `double`: not
defined for a zero divisor. -/
def divide (sum : Double) (size : Nat) : Option Double :=
  if size = 0 then none else some (Double.div sum (Double.ofNat size))

/-- Member function `name() const`: the value returned and the object after
the call. -/
def Student.name (self : Student) : List Char × Student :=
  (self.name_, self)

/-- Member function `id() const`: the value returned and the object after the
call. -/
def Student.id (self : Student) : Int × Student :=
  (self.id_, self)

/-- Member function `average() const`: the value returned and the object after
the call.  The literal `0.0`, returned by the guard and passed to
`std::accumulate`, is the value 0. -/
def Student.average (self : Student) : Option Double × Student :=
  if self.scores_.isEmpty then (some (Double.finite 0), self)
  else (divide (accumulate self.scores_ (Double.finite 0)) self.scores_.length, self)

/-- Member function `addScore(s)`: the object after `scores_.push_back(s)`. -/
def Student.addScore (self : Student) (s : Double) : Student :=
  { self with scores_ := self.scores_ ++ [s] }

/-- What `printReport` prints: name, id and average. -/
def printReport (s : Student) : List Char × Int × Option Double :=
  ((Student.name s).1, (Student.id s).1, (Student.average s).1)

/-- The object `stu` of `main` when `printReport` is called. -/
def stu : Student :=
  (((Student.new "Alice".toList 12345).addScore (Double.lit 85.5)).addScore
    (Double.lit 92.0)).addScore (Double.lit 78.5)

/-- The program: the three values printed. -/
def main : List Char × Int × Option Double := printReport stu

end StudentReport

/-! ## `CodeCourse/score.cpp` -/

namespace Score

/-- The line printed by the `if / else if / else` at the end of `main`. -/
inductive Message where
  | student1Higher
  | student2Higher
  | sameAverage
  deriving DecidableEq, Repr

/-- The expression `(scores[0] + scores[1] + scores[2]) / 3.0`: two `int`
additions on vector elements, the conversion of their result to `double`,
then a `double` division by the literal `3.0`. -/
def average3 (scores : List Int) : Option Double :=
  match scores[0]?, scores[1]?, scores[2]? with
  | some x, some y, some z =>
    match checked (x + y) with
    | none => none
    | some s =>
      match checked (s + z) with
      | none => none
      | some t => some (Double.div (Double.ofInt t) (Double.lit 3.0))
  | _, _, _ => none

/-- The branch `if (avg1 > avg2) ... else if (avg2 > avg1) ... else ...`. -/
def compare (avg1 avg2 : Double) : Message :=
  if Double.gt avg1 avg2 = true then .student1Higher
  else if Double.gt avg2 avg1 = true then .student2Higher
  else .sameAverage

/-- The body of `main` after the `push_back` calls, on score vectors in place
of the literal ones: `avg1`, `avg2` and the message printed. -/
def run (scores1 scores2 : List Int) : Option (Double × Double × Message) :=
  match average3 scores1 with
  | none => none
  | some avg1 =>
    match average3 scores2 with
    | none => none
    | some avg2 => some (avg1, avg2, compare avg1 avg2)

/-- The vector `scores1` after its three `push_back` calls. -/
def scores1 : List Int := (([] ++ [85]) ++ [90]) ++ [78]

/-- The vector `scores2` after its three `push_back` calls. -/
def scores2 : List Int := (([] ++ [92]) ++ [88]) ++ [95]

/-- The program. -/
def main : Option (Double × Double × Message) := run scores1 scores2

end Score

/-! ## `codeExam/array/array_thing.cpp` -/

namespace ArrayThing

/-- A two-dimensional array of `double`: the list of its rows. -/
abbrev Table := List (List Double)

/-- The read `arr[i][j]`: defined only inside the array. -/
def get2 (arr : Table) (i j : Nat) : Option Double :=
  match arr[i]? with
  | none => none
  | some row => row[j]?

/-- The write `rowSums[i] = v`; an element of `rowSums` holds no value until
it is written. -/
def writeRowSum (rowSums : List (Option Double)) (i : Nat) (v : Double) :
    Option (List (Option Double)) :=
  if i < rowSums.length then some (rowSums.set i (some v)) else none

/-- The read `rowSums[i]`: defined only inside the array and on a written
element. -/
def readRowSum (rowSums : List (Option Double)) (i : Nat) : Option Double :=
  match rowSums[i]? with
  | some (some v) => some v
  | _ => none

/-- The loop `for (int j = 0; j < 4; ++j) cout << arr[i][j] << " ";` from the
state (`j`, numbers printed on this line). -/
def printRowLoop (arr : Table) (i : Nat) (j : Nat) (out : List Double) :
    Option (List Double) :=
  if j < 4 then
    match get2 arr i j with
    | none => none
    | some v => printRowLoop arr i (j + 1) (out ++ [v])
  else some out
termination_by 4 - j
decreasing_by omega

/-- The loop `for (int i = 0; i < 2; ++i)` printing the rows, from the state
(`i`, lines printed). -/
def printLoop (arr : Table) (i : Nat) (out : List (List Double)) :
    Option (List (List Double)) :=
  if i < 2 then
    match printRowLoop arr i 0 [] with
    | none => none
    | some line => printLoop arr (i + 1) (out ++ [line])
  else some out
termination_by 2 - i
decreasing_by omega

/-- The loop `for (int j = 0; j < 4; ++j) sum += arr[i][j];` from the state
`(sum, j)`. -/
def rowLoop (arr : Table) (i : Nat) (sum : Double) (j : Nat) : Option Double :=
  if j < 4 then
    match get2 arr i j with
    | none => none
    | some v => rowLoop arr i (Double.add sum v) (j + 1)
  else some sum
termination_by 4 - j
decreasing_by omega

/-- The loop `for (int i = 0; i < 2; ++i)` with body `double sum = 0.0;`, the
`j` loop and `rowSums[i] = sum;`, from the state `(rowSums, i)`; the literal
`0.0` is the value 0. -/
def rowSumsLoop (arr : Table) (rowSums : List (Option Double)) (i : Nat) :
    Option (List (Option Double)) :=
  if i < 2 then
    match rowLoop arr i (Double.finite 0) 0 with
    | none => none
    | some sum =>
      match writeRowSum rowSums i sum with
      | none => none
      | some rowSums1 => rowSumsLoop arr rowSums1 (i + 1)
  else some rowSums
termination_by 2 - i
decreasing_by omega

/-- The loop `for (int i = 0; i < 2; ++i) grandTotal += rowSums[i];` from the
state `(grandTotal, i)`. -/
def totalLoop (rowSums : List (Option Double)) (grandTotal : Double) (i : Nat) :
    Option Double :=
  if i < 2 then
    match readRowSum rowSums i with
    | none => none
    | some v => totalLoop rowSums (Double.add grandTotal v) (i + 1)
  else some grandTotal
termination_by 2 - i
decreasing_by omega

/-- The loop `for (int i = 0; i < 2; ++i)` printing `rowSums[i]`, from the
state (`i`, numbers printed). -/
def printSumsLoop (rowSums : List (Option Double)) (i : Nat) (out : List Double) :
    Option (List Double) :=
  if i < 2 then
    match readRowSum rowSums i with
    | none => none
    | some v => printSumsLoop rowSums (i + 1) (out ++ [v])
  else some out
termination_by 2 - i
decreasing_by omega

/-- What the program prints. -/
structure Output where
  /-- The lines printed after `Array elements:`. -/
  elements : List (List Double)
  /-- The numbers printed after `Row sums:`. -/
  rowSums : List Double
  /-- The number printed after `Grand total: `. -/
  grandTotal : Double
  deriving DecidableEq, Repr

/-- The body of `main` on an array `arr` in place of the literal; `rowSums`
is declared without initial values and `grandTotal` starts at `0.0`. -/
def run (arr : Table) : Option Output :=
  match printLoop arr 0 [] with
  | none => none
  | some elements =>
    match rowSumsLoop arr [none, none] 0 with
    | none => none
    | some rowSums =>
      match totalLoop rowSums (Double.finite 0) 0 with
      | none => none
      | some grandTotal =>
        match printSumsLoop rowSums 0 [] with
        | none => none
        | some sums => some ⟨elements, sums, grandTotal⟩

/-- The literal `arr`. -/
def arr : Table :=
  [[Double.lit 3.5, Double.lit (-1.0), Double.lit 0.0, Double.lit 2.25],
    [Double.lit 10.5, Double.lit 7.0, Double.lit (-8.0), Double.lit (-4.5)]]

/-- The program: `run` on the literal array. -/
def main : Option Output := run arr

end ArrayThing

/-! # Theorems -/

/-! ## Machine integers -/

theorem checked_of_inInt {v : Int} (h : inInt v) : checked v = some v := by
  simp [checked, h]

theorem checked_of_not_inInt {v : Int} (h : ¬ inInt v) : checked v = none := by
  simp [checked, h]

/-! ## Polymorphism demo -/

/-- C1 (the code departs from the claim).  `area` is not `virtual`, so a call
through a `Shape*` runs `Shape::area` and yields 0 for every object: `main`
prints 0 for the rectangle and 0 for the circle, although the overriding
implementations, called on the derived types, give 15 and 50.26544. -/
theorem polymorphism_shape_ptr_calls_base :
    Polymorphism.main = (0, 0) ∧
    (∀ obj, Polymorphism.callAreaViaShapePtr obj = 0) ∧
    Polymorphism.callAreaViaShapePtr (.rectangle 5 3) ≠ 15 ∧
    Polymorphism.callAreaViaShapePtr (.circle 4) ≠ 50.26544 ∧
    Polymorphism.callAreaViaRectangle Polymorphism.shape1 = some 15 ∧
    Polymorphism.callAreaViaCircle Polymorphism.shape2 = some 50.26544 := by
  refine ⟨rfl, fun _ => rfl, ?_, ?_, ?_, ?_⟩
  · simp [Polymorphism.callAreaViaShapePtr, Polymorphism.Shape.area]
  · simp [Polymorphism.callAreaViaShapePtr, Polymorphism.Shape.area]
    norm_num
  · simp [Polymorphism.callAreaViaRectangle, Polymorphism.shape1, Polymorphism.Rectangle.area]
    norm_num
  · simp [Polymorphism.callAreaViaCircle, Polymorphism.shape2, Polymorphism.Circle.area]
    norm_num

/-! ## Array pointer walk -/

/-- C2.  On the literal array `{1,2,3,4,5,6,7,8}` the program runs without
leaving the array, the sum is 36, the array after the reversal loop is
`{8,7,6,5,4,3,2,1}`, and after zeroing offsets 2..5 the final (and printed)
array is `{8,7,0,0,0,0,2,1}`. -/
theorem someArth_main_literal :
    SomeArth.main =
      some ⟨36, [8, 7, 6, 5, 4, 3, 2, 1], 4, [8, 7, 0, 0, 0, 0, 2, 1], [2, 3, 4, 5],
        [8, 7, 0, 0, 0, 0, 2, 1]⟩ := by
  simp [SomeArth.main, SomeArth.run, SomeArth.a, SomeArth.sumLoop, SomeArth.reverseLoop,
    SomeArth.zeroLoop, SomeArth.printLoop, SomeArth.readAt, SomeArth.writeAt, checked, inInt,
    INT_MAX, INT_MIN]

/-! ## Long-word filter -/

theorem iter_readLoop_eq (tokens valid_words : List (List Char)) :
    Iter.readLoop tokens valid_words =
      valid_words ++ tokens.takeWhile (fun w => decide (w.length ≥ 8)) := by
  induction tokens generalizing valid_words with
  | nil => simp [Iter.readLoop]
  | cons w rest ih =>
    by_cases h : w.length ≥ 8
    · simp [Iter.readLoop, h, ih, List.takeWhile_cons]
    · simp [Iter.readLoop, h, List.takeWhile_cons]

theorem iter_printLoop_eq (words : List (List Char)) : Iter.printLoop words = words := by
  induction words with
  | nil => rfl
  | cons w rest ih => simp [Iter.printLoop, ih]

theorem prefix_takeWhile_of_forall {α : Type} (p : α → Bool) :
    ∀ (l q : List α), q <+: l → (∀ x ∈ q, p x = true) → q <+: l.takeWhile p := by
  intro l
  induction l with
  | nil =>
    intro q hq _
    simpa using hq
  | cons a l ih =>
    intro q hq hall
    cases q with
    | nil => exact List.nil_prefix
    | cons b q =>
      rw [List.cons_prefix_cons] at hq
      obtain ⟨hab, hq⟩ := hq
      subst hab
      have hb : p b = true := hall b (List.mem_cons_self _ _)
      rw [List.takeWhile_cons_of_pos hb, List.cons_prefix_cons]
      exact ⟨rfl, ih q hq (fun x hx => hall x (List.mem_cons_of_mem _ hx))⟩

/-- C3.  For every token sequence the words kept (and printed) are the
take-while of the tokens under `length >= 8`: a prefix of the input, made of
long tokens only, and containing every prefix of the input made of long tokens
only.  On `elephant cat giraffe` only `elephant` is kept. -/
theorem iter_main_is_take_while (tokens : List (List Char)) :
    Iter.main tokens = tokens.takeWhile (fun w => decide (w.length ≥ 8)) ∧
    Iter.main tokens <+: tokens ∧
    (∀ w ∈ Iter.main tokens, w.length ≥ 8) ∧
    (∀ q, q <+: tokens → (∀ w ∈ q, w.length ≥ 8) → q <+: Iter.main tokens) ∧
    Iter.main ["elephant".toList, "cat".toList, "giraffe".toList] = ["elephant".toList] ∧
    Iter.main ["elephant".toList, "cat".toList, "hippopotamus".toList] =
      ["elephant".toList] := by
  have hmain : ∀ ts, Iter.main ts = ts.takeWhile (fun w => decide (w.length ≥ 8)) := by
    intro ts
    simp [Iter.main, iter_printLoop_eq, iter_readLoop_eq]
  refine ⟨hmain tokens, ?_, ?_, ?_, by decide, by decide⟩
  · rw [hmain]
    exact List.takeWhile_prefix _
  · intro w hw
    rw [hmain] at hw
    simpa using List.mem_takeWhile_imp hw
  · intro q hq hall
    rw [hmain]
    exact prefix_takeWhile_of_forall _ tokens q hq (fun x hx => by simpa using hall x hx)

/-! ## String character substitution -/

theorem modifyStringLoop_append (suf : List Char) :
    ∀ pre : List Char,
      StringEdit.modifyStringLoop (pre ++ suf) pre.length =
        some (pre ++ suf.map (fun c => if c = 'r' ∨ c = 'a' ∨ c = 'y' then 'R' else c)) := by
  induction suf with
  | nil =>
    intro pre
    rw [StringEdit.modifyStringLoop]
    simp
  | cons c suf ih =>
    intro pre
    have hget : (pre ++ c :: suf)[pre.length]? = some c := by
      rw [List.getElem?_append_right (Nat.le_refl _)]
      simp
    have hset : (pre ++ c :: suf).set pre.length 'R' = (pre ++ ['R']) ++ suf := by simp
    have hsame : pre ++ c :: suf = (pre ++ [c]) ++ suf := by simp
    have hlen : ∀ x : Char, pre.length + 1 = (pre ++ [x]).length := by simp
    rw [StringEdit.modifyStringLoop]
    simp only [List.length_append, List.length_cons, Nat.lt_add_right_iff_pos, Nat.succ_pos,
      if_true, hget]
    by_cases hc : c = 'r' ∨ c = 'a' ∨ c = 'y'
    · simp only [hc, if_true, List.map_cons]
      rw [hset, hlen 'R', ih (pre ++ ['R'])]
      simp
    · simp only [hc, if_false, List.map_cons]
      rw [hsame, hlen c, ih (pre ++ [c])]
      simp

/-- C9 (as the code behaves).  On the literal `"vector_and_arrays"`
`modifyString` yields `"vectoR_Rnd_RRRRRs"`: the `d` of `and` is none of
`r`, `a`, `y` and stays. -/
theorem modifyString_literal :
    StringEdit.modifyString StringEdit.literal = some "vectoR_Rnd_RRRRRs".toList := by
  simp [StringEdit.modifyString, StringEdit.literal, StringEdit.modifyStringLoop]

/-- C9 (the claim as stated fails).  The result of `modifyString` on the literal
`"vector_and_arrays"` is not `"vectoR_RnR_RRRRRs"`. -/
theorem modifyString_literal_not_claimed :
    StringEdit.modifyString StringEdit.literal ≠ some "vectoR_RnR_RRRRRs".toList := by
  simp [StringEdit.modifyString, StringEdit.literal, StringEdit.modifyStringLoop]

/-- C10.  For every string `s`, `modifyString` returns a string of the same
length whose character at every index is `'R'` where `s` has `'r'`, `'a'` or
`'y'`, and the character of `s` otherwise; in particular `'A'`, `'Y'` and `'R'`
stay as they are. -/
theorem modifyString_pointwise (s : List Char) :
    ∃ t : List Char, StringEdit.modifyString s = some t ∧ t.length = s.length ∧
      (∀ i : Nat, t[i]? =
        (s[i]?).map (fun c => if c = 'r' ∨ c = 'a' ∨ c = 'y' then 'R' else c)) ∧
      StringEdit.modifyString "rAyYaR".toList = some "RARYRR".toList := by
  refine ⟨s.map (fun c => if c = 'r' ∨ c = 'a' ∨ c = 'y' then 'R' else c), ?_, ?_, ?_, ?_⟩
  · have h := modifyStringLoop_append s []
    simpa [StringEdit.modifyString] using h
  · simp
  · intro i
    exact List.getElem?_map _ _ _
  · simp [StringEdit.modifyString, StringEdit.modifyStringLoop]

/-! ## Matrix operations -/

theorem hasShape_two_three {M : VecCal.Matrix} (h : VecCal.hasShape M 2 3) :
    ∃ a b c d e f : Int, M = [[a, b, c], [d, e, f]] := by
  obtain ⟨hlen, hrows⟩ := h
  obtain ⟨r0, r1, rfl⟩ := List.length_eq_two.mp hlen
  obtain ⟨a, b, c, rfl⟩ := List.length_eq_three.mp (hrows r0 (by simp))
  obtain ⟨d, e, f, rfl⟩ := List.length_eq_three.mp (hrows r1 (by simp))
  exact ⟨a, b, c, d, e, f, rfl⟩

theorem hasShape_three_two {M : VecCal.Matrix} (h : VecCal.hasShape M 3 2) :
    ∃ a b c d e f : Int, M = [[a, b], [c, d], [e, f]] := by
  obtain ⟨hlen, hrows⟩ := h
  obtain ⟨r0, r1, r2, rfl⟩ := List.length_eq_three.mp hlen
  obtain ⟨a, b, rfl⟩ := List.length_eq_two.mp (hrows r0 (by simp))
  obtain ⟨c, d, rfl⟩ := List.length_eq_two.mp (hrows r1 (by simp))
  obtain ⟨e, f, rfl⟩ := List.length_eq_two.mp (hrows r2 (by simp))
  exact ⟨a, b, c, d, e, f, rfl⟩

/-- C5 (as the code behaves).  For all 2x3 matrices `A`, `B` whose elementwise
sums are representable as `int`, the addition loops run inside the vectors and
leave in `C` the 2x3 matrix with `C[i][j] = A[i][j] + B[i][j]`; on the literals
`C` is `{{8,10,12},{14,16,18}}`. -/
theorem addition_elementwise (A B : VecCal.Matrix)
    (hA : VecCal.hasShape A 2 3) (hB : VecCal.hasShape B 2 3)
    (hfit : ∀ i < 2, ∀ j < 3, inInt (VecCal.entry A i j + VecCal.entry B i j)) :
    (∃ C, VecCal.addition A B = some C ∧ VecCal.hasShape C 2 3 ∧
      ∀ i < 2, ∀ j < 3, VecCal.entry C i j = VecCal.entry A i j + VecCal.entry B i j) ∧
    VecCal.addition VecCal.A VecCal.B = some [[8, 10, 12], [14, 16, 18]] := by
  constructor
  · obtain ⟨a0, a1, a2, a3, a4, a5, rfl⟩ := hasShape_two_three hA
    obtain ⟨b0, b1, b2, b3, b4, b5, rfl⟩ := hasShape_two_three hB
    have h00 := checked_of_inInt (hfit 0 (by norm_num) 0 (by norm_num))
    have h01 := checked_of_inInt (hfit 0 (by norm_num) 1 (by norm_num))
    have h02 := checked_of_inInt (hfit 0 (by norm_num) 2 (by norm_num))
    have h10 := checked_of_inInt (hfit 1 (by norm_num) 0 (by norm_num))
    have h11 := checked_of_inInt (hfit 1 (by norm_num) 1 (by norm_num))
    have h12 := checked_of_inInt (hfit 1 (by norm_num) 2 (by norm_num))
    simp only [VecCal.entry, List.getD_cons_zero, List.getD_cons_succ] at h00 h01 h02 h10 h11 h12
    refine ⟨[[a0 + b0, a1 + b1, a2 + b2], [a3 + b3, a4 + b4, a5 + b5]], ?_, ?_, ?_⟩
    · simp [VecCal.addition, VecCal.addLoopI, VecCal.addLoopJ, VecCal.get2, VecCal.set2,
        h00, h01, h02, h10, h11, h12, List.replicate]
    · simp [VecCal.hasShape]
    · intro i hi j hj
      interval_cases i <;> interval_cases j <;> simp [VecCal.entry]
  · simp [VecCal.addition, VecCal.A, VecCal.B, VecCal.addLoopI, VecCal.addLoopJ, VecCal.get2,
      VecCal.set2, checked, inInt, INT_MAX, INT_MIN, List.replicate]

theorem addition_elementwise_witness :
    VecCal.hasShape VecCal.A 2 3 ∧ VecCal.hasShape VecCal.B 2 3 ∧
    (∀ i < 2, ∀ j < 3, inInt (VecCal.entry VecCal.A i j + VecCal.entry VecCal.B i j)) ∧
    (∃ C, VecCal.addition VecCal.A VecCal.B = some C ∧ VecCal.hasShape C 2 3 ∧
      ∀ i < 2, ∀ j < 3,
        VecCal.entry C i j = VecCal.entry VecCal.A i j + VecCal.entry VecCal.B i j) ∧
    VecCal.addition VecCal.A VecCal.B = some [[8, 10, 12], [14, 16, 18]] :=
  ⟨by decide, by decide, by decide,
    addition_elementwise VecCal.A VecCal.B (by decide) (by decide) (by decide)⟩

/-- C5 (the claim as stated fails).  `A[0][0] = INT_MAX` and `B[0][0] = 1` are
`int` values whose sum is not one: the addition loop has no defined result,
so no `C` with `C[0][0] = A[0][0] + B[0][0]` is produced. -/
theorem addition_overflow :
    VecCal.hasShape [[2147483647, 0, 0], [0, 0, 0]] 2 3 ∧
    VecCal.hasShape [[1, 0, 0], [0, 0, 0]] 2 3 ∧
    inInt 2147483647 ∧ inInt 1 ∧
    VecCal.addition [[2147483647, 0, 0], [0, 0, 0]] [[1, 0, 0], [0, 0, 0]] = none ∧
    ¬ ∃ C, VecCal.addition [[2147483647, 0, 0], [0, 0, 0]] [[1, 0, 0], [0, 0, 0]] = some C ∧
      VecCal.entry C 0 0 = 2147483647 + 1 := by
  have h : VecCal.addition [[2147483647, 0, 0], [0, 0, 0]] [[1, 0, 0], [0, 0, 0]] = none := by
    simp [VecCal.addition, VecCal.addLoopI, VecCal.addLoopJ, VecCal.get2, VecCal.set2, checked,
      inInt, INT_MAX, INT_MIN, List.replicate]
  refine ⟨by decide, by decide, by decide, by decide, h, ?_⟩
  rw [h]
  simp

/-- C4 (as the code behaves).  For every 2x3 matrix `A` and 3x2 matrix `D` such
that each product `A[i][k]*D[k][j]` and each partial sum of the accumulation is
representable as `int`, the triple loop runs inside the vectors and, after
`D = result`, `D` is the 2x2 matrix with `D[i][j] = Σ_{k<3} A[i][k]*D[k][j]`; on
the literals it is `{{22,28},{49,64}}`. -/
theorem product_is_matrix_product (A D : VecCal.Matrix)
    (hA : VecCal.hasShape A 2 3) (hD : VecCal.hasShape D 3 2)
    (hfit : ∀ i < 2, ∀ j < 2, ∀ k < 3,
      inInt (VecCal.entry A i k * VecCal.entry D k j) ∧
      inInt (∑ m in Finset.range (k + 1), VecCal.entry A i m * VecCal.entry D m j)) :
    (∃ R, VecCal.product A D = some R ∧ VecCal.hasShape R 2 2 ∧
      ∀ i < 2, ∀ j < 2,
        VecCal.entry R i j = ∑ k in Finset.range 3, VecCal.entry A i k * VecCal.entry D k j) ∧
    VecCal.product VecCal.A VecCal.D = some [[22, 28], [49, 64]] := by
  constructor
  · obtain ⟨a0, a1, a2, a3, a4, a5, rfl⟩ := hasShape_two_three hA
    obtain ⟨d0, d1, d2, d3, d4, d5, rfl⟩ := hasShape_three_two hD
    have key : ∀ i < 2, ∀ j < 2, ∀ k < 3,
        checked (VecCal.entry [[a0, a1, a2], [a3, a4, a5]] i k *
          VecCal.entry [[d0, d1], [d2, d3], [d4, d5]] k j) = some _ ∧
        checked (∑ m in Finset.range (k + 1), VecCal.entry [[a0, a1, a2], [a3, a4, a5]] i m *
          VecCal.entry [[d0, d1], [d2, d3], [d4, d5]] m j) = some _ :=
      fun i hi j hj k hk =>
        ⟨checked_of_inInt (hfit i hi j hj k hk).1, checked_of_inInt (hfit i hi j hj k hk).2⟩
    have h000 := key 0 (by norm_num) 0 (by norm_num) 0 (by norm_num)
    have h001 := key 0 (by norm_num) 0 (by norm_num) 1 (by norm_num)
    have h002 := key 0 (by norm_num) 0 (by norm_num) 2 (by norm_num)
    have h010 := key 0 (by norm_num) 1 (by norm_num) 0 (by norm_num)
    have h011 := key 0 (by norm_num) 1 (by norm_num) 1 (by norm_num)
    have h012 := key 0 (by norm_num) 1 (by norm_num) 2 (by norm_num)
    have h100 := key 1 (by norm_num) 0 (by norm_num) 0 (by norm_num)
    have h101 := key 1 (by norm_num) 0 (by norm_num) 1 (by norm_num)
    have h102 := key 1 (by norm_num) 0 (by norm_num) 2 (by norm_num)
    have h110 := key 1 (by norm_num) 1 (by norm_num) 0 (by norm_num)
    have h111 := key 1 (by norm_num) 1 (by norm_num) 1 (by norm_num)
    have h112 := key 1 (by norm_num) 1 (by norm_num) 2 (by norm_num)
    simp only [VecCal.entry, List.getD_cons_zero, List.getD_cons_succ, Finset.sum_range_succ,
      Finset.sum_range_zero, zero_add] at h000 h001 h002 h010 h011 h012
    simp only [VecCal.entry, List.getD_cons_zero, List.getD_cons_succ, Finset.sum_range_succ,
      Finset.sum_range_zero, zero_add] at h100 h101 h102 h110 h111 h112
    refine ⟨[[a0 * d0 + a1 * d2 + a2 * d4, a0 * d1 + a1 * d3 + a2 * d5],
      [a3 * d0 + a4 * d2 + a5 * d4, a3 * d1 + a4 * d3 + a5 * d5]], ?_, ?_, ?_⟩
    · simp [VecCal.product, VecCal.mulLoopI, VecCal.mulLoopJ, VecCal.mulLoopK, VecCal.get2,
        VecCal.set2, h000, h001, h002, h010, h011, h012, h100, h101, h102, h110, h111, h112,
        List.replicate]
    · simp [VecCal.hasShape]
    · intro i hi j hj
      interval_cases i <;> interval_cases j <;>
        simp [VecCal.entry, Finset.sum_range_succ]
  · simp [VecCal.product, VecCal.A, VecCal.D, VecCal.mulLoopI, VecCal.mulLoopJ, VecCal.mulLoopK,
      VecCal.get2, VecCal.set2, checked, inInt, INT_MAX, INT_MIN, List.replicate]

theorem product_is_matrix_product_witness :
    VecCal.hasShape VecCal.A 2 3 ∧ VecCal.hasShape VecCal.D 3 2 ∧
    (∀ i < 2, ∀ j < 2, ∀ k < 3,
      inInt (VecCal.entry VecCal.A i k * VecCal.entry VecCal.D k j) ∧
      inInt (∑ m in Finset.range (k + 1),
        VecCal.entry VecCal.A i m * VecCal.entry VecCal.D m j)) ∧
    (∃ R, VecCal.product VecCal.A VecCal.D = some R ∧ VecCal.hasShape R 2 2 ∧
      ∀ i < 2, ∀ j < 2,
        VecCal.entry R i j =
          ∑ k in Finset.range 3, VecCal.entry VecCal.A i k * VecCal.entry VecCal.D k j) ∧
    VecCal.product VecCal.A VecCal.D = some [[22, 28], [49, 64]] :=
  ⟨by decide, by decide, by decide,
    product_is_matrix_product VecCal.A VecCal.D (by decide) (by decide) (by decide)⟩

/-- C4 (the claim as stated fails).  `A[0][0] = D[0][0] = 65536` are `int`
values whose product `2^32` is not one: the product loop has no defined
result, so no `result` with `result[0][0] = Σ_k A[0][k]*D[k][0]` is produced. -/
theorem product_overflow :
    VecCal.hasShape [[65536, 0, 0], [0, 0, 0]] 2 3 ∧
    VecCal.hasShape [[65536, 0], [0, 0], [0, 0]] 3 2 ∧
    inInt 65536 ∧
    VecCal.product [[65536, 0, 0], [0, 0, 0]] [[65536, 0], [0, 0], [0, 0]] = none ∧
    ¬ ∃ R, VecCal.product [[65536, 0, 0], [0, 0, 0]] [[65536, 0], [0, 0], [0, 0]] = some R ∧
      VecCal.entry R 0 0 = 65536 * 65536 + 0 * 0 + 0 * 0 := by
  have h : VecCal.product [[65536, 0, 0], [0, 0, 0]] [[65536, 0], [0, 0], [0, 0]] = none := by
    simp [VecCal.product, VecCal.mulLoopI, VecCal.mulLoopJ, VecCal.mulLoopK, VecCal.get2,
      VecCal.set2, checked, inInt, INT_MAX, INT_MIN, List.replicate]
  refine ⟨by decide, by decide, by decide, h, ?_⟩
  rw [h]
  simp

/-! ## Line analyzer -/

theorem isalpha_not_isdigit {c : Char} (h : InputManage.isalpha c = true) :
    InputManage.isdigit c = false := by
  simp only [InputManage.isalpha, InputManage.isdigit, Bool.or_eq_true, Bool.and_eq_true,
    decide_eq_true_eq, Bool.and_eq_false_imp] at *
  intro h1
  simp only [decide_eq_false_iff_not]
  omega

theorem isalpha_not_isspace {c : Char} (h : InputManage.isalpha c = true) :
    InputManage.isspace c = false := by
  simp only [InputManage.isalpha, InputManage.isspace, Bool.or_eq_true, Bool.and_eq_true,
    decide_eq_true_eq, Bool.or_eq_false_iff, Bool.and_eq_false_imp,
    decide_eq_false_iff_not] at *
  omega

theorem isdigit_not_isspace {c : Char} (h : InputManage.isdigit c = true) :
    InputManage.isspace c = false := by
  simp only [InputManage.isdigit, InputManage.isspace, Bool.or_eq_true, Bool.and_eq_true,
    decide_eq_true_eq, Bool.or_eq_false_iff, Bool.and_eq_false_imp,
    decide_eq_false_iff_not] at *
  omega

theorem sizeToInt_of_lt {n : Nat} (h : n < 2147483648) : sizeToInt n = n := by
  unfold sizeToInt
  omega

theorem countLoop_eq (line : List Char) :
    ∀ k : InputManage.Counts,
      (0 ≤ k.letters ∧ k.letters + line.length ≤ 2147483647) →
      (0 ≤ k.digits ∧ k.digits + line.length ≤ 2147483647) →
      (0 ≤ k.spaces ∧ k.spaces + line.length ≤ 2147483647) →
      InputManage.countLoop line k =
        some ⟨k.letters + line.countP InputManage.isalpha,
          k.digits + line.countP InputManage.isdigit,
          k.spaces + line.countP InputManage.isspace⟩ := by
  induction line with
  | nil =>
    intro k _ _ _
    simp [InputManage.countLoop]
  | cons c rest ih =>
    intro k hl hd hs
    simp only [List.length_cons, Nat.cast_add, Nat.cast_one] at hl hd hs
    have fit : ∀ v : Int, 0 ≤ v → v + 1 ≤ 2147483647 → checked (v + 1) = some (v + 1) := by
      intro v h0 h1
      apply checked_of_inInt
      simp only [inInt, INT_MIN, INT_MAX]
      omega
    by_cases ha : InputManage.isalpha c = true
    · have hnd := isalpha_not_isdigit ha
      have hns := isalpha_not_isspace ha
      rw [InputManage.countLoop]
      simp only [ha, if_true, fit k.letters hl.1 (by omega)]
      rw [ih _ (by constructor <;> simp <;> omega) (by constructor <;> simp <;> omega)
        (by constructor <;> simp <;> omega)]
      simp [List.countP_cons, ha, hnd, hns]
      omega
    · by_cases hd' : InputManage.isdigit c = true
      · have hns := isdigit_not_isspace hd'
        rw [InputManage.countLoop]
        simp only [ha, hd', if_true, fit k.digits hd.1 (by omega)]
        rw [ih _ (by constructor <;> simp <;> omega) (by constructor <;> simp <;> omega)
          (by constructor <;> simp <;> omega)]
        simp [List.countP_cons, ha, hd', hns]
        omega
      · by_cases hs' : InputManage.isspace c = true
        · rw [InputManage.countLoop]
          simp only [ha, hd', hs', if_true, fit k.spaces hs.1 (by omega)]
          rw [ih _ (by constructor <;> simp <;> omega) (by constructor <;> simp <;> omega)
            (by constructor <;> simp <;> omega)]
          simp [List.countP_cons, ha, hd', hs']
          omega
        · rw [InputManage.countLoop]
          simp only [ha, hd', hs']
          rw [ih _ (by constructor <;> omega) (by constructor <;> omega)
            (by constructor <;> omega)]
          simp [List.countP_cons, ha, hd', hs']

theorem countLoop_letters_overflow (n : Nat) :
    ∀ k : InputManage.Counts, 0 ≤ k.letters → k.letters ≤ 2147483647 →
      2147483647 < k.letters + n →
      InputManage.countLoop (List.replicate n 'a') k = none := by
  induction n with
  | zero =>
    intro k _ h1 h2
    simp only [Nat.cast_zero, add_zero] at h2
    omega
  | succ n ih =>
    intro k h0 h1 h2
    have ha : InputManage.isalpha 'a' = true := by decide
    rw [List.replicate_succ, InputManage.countLoop]
    simp only [ha, if_true]
    by_cases hk : k.letters + 1 ≤ 2147483647
    · have hfit : checked (k.letters + 1) = some (k.letters + 1) := by
        apply checked_of_inInt
        simp only [inInt, INT_MIN, INT_MAX]
        omega
      simp only [hfit]
      apply ih
      · simp only
        omega
      · simpa using hk
      · simp only
        push_cast at h2
        omega
    · have hfit : checked (k.letters + 1) = none := by
        apply checked_of_not_inInt
        simp only [inInt, INT_MIN, INT_MAX]
        omega
      simp only [hfit]

theorem main_of_many_letters (n : Nat) (hn : 2147483647 < n) :
    InputManage.main (List.replicate n 'a') = none := by
  have hc := countLoop_letters_overflow n ⟨0, 0, 0⟩ (le_refl _) (by norm_num)
    (by simp only [zero_add]; exact_mod_cast hn)
  simp only [InputManage.main, hc]

/-- C7 (as the code behaves).  For every input line of fewer than `2^31`
characters the program reports total = the length of the line, letters = the
number of alphabetic characters, digits = the number of decimal digits and
spaces = the number of whitespace characters of the original line; no
character is in two classes and the comma is in none; on `"ab,  cd 12"` it
reports letters 4, digits 2, spaces 3, total 10. -/
theorem inputManage_counts (line : List Char) (hlen : line.length < 2147483648) :
    (∃ r, InputManage.main line = some r ∧ r.total = line.length ∧
      r.letters = line.countP InputManage.isalpha ∧
      r.digits = line.countP InputManage.isdigit ∧
      r.spaces = line.countP InputManage.isspace) ∧
    (∀ c, ¬ (InputManage.isalpha c = true ∧ InputManage.isdigit c = true) ∧
      ¬ (InputManage.isalpha c = true ∧ InputManage.isspace c = true) ∧
      ¬ (InputManage.isdigit c = true ∧ InputManage.isspace c = true)) ∧
    (InputManage.isalpha ',' = false ∧ InputManage.isdigit ',' = false ∧
      InputManage.isspace ',' = false) ∧
    InputManage.main "ab,  cd 12".toList = some ⟨10, 4, 2, 3, "ab cd 12".toList⟩ := by
  refine ⟨?_, ?_, by decide, by decide⟩
  · have hb : (0 : Int) ≤ 0 ∧ (0 : Int) + line.length ≤ 2147483647 := ⟨le_refl _, by omega⟩
    have h := countLoop_eq line ⟨0, 0, 0⟩ hb hb hb
    refine ⟨⟨line.length, line.countP InputManage.isalpha, line.countP InputManage.isdigit,
      line.countP InputManage.isspace, InputManage.clean line⟩, ?_, rfl, rfl, rfl, rfl⟩
    simp [InputManage.main, h, sizeToInt_of_lt hlen]
  · intro c
    refine ⟨?_, ?_, ?_⟩
    · rintro ⟨h1, h2⟩
      simp [isalpha_not_isdigit h1] at h2
    · rintro ⟨h1, h2⟩
      simp [isalpha_not_isspace h1] at h2
    · rintro ⟨h1, h2⟩
      simp [isdigit_not_isspace h1] at h2

theorem inputManage_counts_witness :
    ("ab,  cd 12".toList).length < 2147483648 ∧
    (∃ r, InputManage.main "ab,  cd 12".toList = some r ∧
      r.total = ("ab,  cd 12".toList).length ∧
      r.letters = ("ab,  cd 12".toList).countP InputManage.isalpha ∧
      r.digits = ("ab,  cd 12".toList).countP InputManage.isdigit ∧
      r.spaces = ("ab,  cd 12".toList).countP InputManage.isspace) ∧
    (∀ c, ¬ (InputManage.isalpha c = true ∧ InputManage.isdigit c = true) ∧
      ¬ (InputManage.isalpha c = true ∧ InputManage.isspace c = true) ∧
      ¬ (InputManage.isdigit c = true ∧ InputManage.isspace c = true)) ∧
    (InputManage.isalpha ',' = false ∧ InputManage.isdigit ',' = false ∧
      InputManage.isspace ',' = false) ∧
    InputManage.main "ab,  cd 12".toList = some ⟨10, 4, 2, 3, "ab cd 12".toList⟩ :=
  ⟨by decide, inputManage_counts "ab,  cd 12".toList (by decide)⟩

/-- C7 (the claim as stated fails).  On a line of `2^31` letters the letter
counter is incremented past `INT_MAX`: the counting loop has no defined result
and no report with letters = total = `2^31` is produced. -/
theorem inputManage_counts_overflow :
    InputManage.main (List.replicate 2147483648 'a') = none ∧
    ¬ ∃ r, InputManage.main (List.replicate 2147483648 'a') = some r ∧
      r.total = (List.replicate 2147483648 'a').length ∧
      r.letters = (List.replicate 2147483648 'a').countP InputManage.isalpha := by
  have h := main_of_many_letters 2147483648 (by norm_num)
  refine ⟨h, ?_⟩
  rintro ⟨r, hr, -⟩
  rw [h] at hr
  exact Option.noConfusion hr

/-- C8.  On the empty line the program reports total 0, letters 0, digits 0,
spaces 0 and an empty cleaned line; the two strip steps leave the empty string
as it is. -/
theorem inputManage_empty_line :
    InputManage.main [] = some ⟨0, 0, 0, 0, []⟩ ∧
    InputManage.collapseLoop (InputManage.commaLoop []) [] false = [] ∧
    InputManage.stripFront [] = [] ∧
    InputManage.stripBack [] = [] := by
  decide

theorem commaLoop_eq_map (line : List Char) :
    InputManage.commaLoop line = line.map (fun c => if c = ',' then ' ' else c) := by
  induction line with
  | nil => rfl
  | cons c rest ih => simp [InputManage.commaLoop, ih]

theorem comma_not_mem_commaLoop (line : List Char) : ',' ∉ InputManage.commaLoop line := by
  rw [commaLoop_eq_map]
  intro h
  obtain ⟨c, -, hc⟩ := List.mem_map.mp h
  by_cases hcc : c = ','
  · simp [hcc] at hc
  · simp only [hcc, if_false] at hc

theorem isspace_space : InputManage.isspace ' ' = true := by decide

theorem collapseLoop_invariant (line : List Char) :
    ∀ (cleaned : List Char) (in_space : Bool),
      ',' ∉ line → ',' ∉ cleaned →
      List.Chain' (fun x y => ¬ (x = ' ' ∧ y = ' ')) cleaned →
      (cleaned.getLast? = some ' ' → in_space = true) →
      (∀ c ∈ cleaned, InputManage.isspace c = true → c = ' ') →
      ',' ∉ InputManage.collapseLoop line cleaned in_space ∧
      List.Chain' (fun x y => ¬ (x = ' ' ∧ y = ' '))
        (InputManage.collapseLoop line cleaned in_space) ∧
      (∀ c ∈ InputManage.collapseLoop line cleaned in_space,
        InputManage.isspace c = true → c = ' ') := by
  induction line with
  | nil =>
    intro cleaned in_space _ hc hch _ hws
    exact ⟨hc, hch, hws⟩
  | cons c rest ih =>
    intro cleaned in_space hline hc hch hlast hws
    have hrest : ',' ∉ rest := fun h => hline (List.mem_cons_of_mem _ h)
    have hcne : c ≠ ',' := fun h => hline (h ▸ List.mem_cons_self _ _)
    rw [InputManage.collapseLoop]
    by_cases hsp : InputManage.isspace c = true
    · cases in_space with
      | false =>
        simp only [hsp, if_true, Bool.not_false]
        apply ih
        · exact hrest
        · simp [hc]
        · rw [List.chain'_append]
          refine ⟨hch, List.chain'_singleton _, ?_⟩
          intro x hx y _ hxy
          have := hlast (by rw [Option.mem_def] at hx; rw [hx, hxy.1])
          exact Bool.noConfusion this
        · intro _
          rfl
        · intro d hd
          rcases List.mem_append.mp hd with h | h
          · exact hws d h
          · intro _
            simpa using h
      | true =>
        simp only [hsp, if_true, Bool.not_true, Bool.false_eq_true, if_false]
        exact ih cleaned true hrest hc hch hlast hws
    · have hcsp : c ≠ ' ' := fun h => hsp (h ▸ isspace_space)
      simp only [hsp, if_false, Bool.false_eq_true]
      apply ih
      · exact hrest
      · simp [hc, Ne.symm hcne]
      · rw [List.chain'_append]
        refine ⟨hch, List.chain'_singleton _, ?_⟩
        intro x _ y hy hxy
        simp only [List.head?_cons, Option.mem_def, Option.some.injEq] at hy
        exact hcsp (hy ▸ hxy.2)
      · intro h
        simp only [List.getLast?_append, List.getLast?_singleton, Option.or_some,
          Option.some.injEq] at h
        exact absurd h hcsp
      · intro d hd
        rcases List.mem_append.mp hd with h | h
        · exact hws d h
        · intro hdsp
          simp only [List.mem_singleton] at h
          exact absurd (h ▸ hdsp) hsp

theorem stripFront_spec (l : List Char)
    (hch : List.Chain' (fun x y => ¬ (x = ' ' ∧ y = ' ')) l) :
    InputManage.stripFront l <:+ l ∧ (InputManage.stripFront l).head? ≠ some ' ' := by
  cases l with
  | nil => simp [InputManage.stripFront]
  | cons c rest =>
    by_cases hc : c = ' '
    · subst hc
      simp only [InputManage.stripFront, if_true]
      refine ⟨List.suffix_cons _ _, ?_⟩
      cases rest with
      | nil => simp
      | cons d rest =>
        rw [List.chain'_cons] at hch
        intro h
        simp only [List.head?_cons, Option.some.injEq] at h
        exact hch.1 ⟨rfl, h⟩
    · simp only [InputManage.stripFront, hc, if_false]
      refine ⟨List.suffix_refl _, ?_⟩
      simpa using hc

theorem stripBack_spec (l : List Char)
    (hch : List.Chain' (fun x y => ¬ (x = ' ' ∧ y = ' ')) l) :
    InputManage.stripBack l <+: l ∧ (InputManage.stripBack l).getLast? ≠ some ' ' := by
  by_cases hlast : l.getLast? = some ' '
  · have hne : l ≠ [] := by
      rintro rfl
      simp at hlast
    have hsplit : l.dropLast ++ [' '] = l := List.dropLast_append_getLast? _ hlast
    have hstrip : InputManage.stripBack l = l.dropLast := by
      simp [InputManage.stripBack, hlast, hne]
    rw [hstrip]
    refine ⟨ List.dropLast_prefix l, ?_⟩
    intro h
    rw [← hsplit, List.chain'_append] at hch
    exact hch.2.2 ' ' h ' ' (by simp) ⟨rfl, rfl⟩
  · have hstrip : InputManage.stripBack l = l := by
      simp [InputManage.stripBack, hlast]
    rw [hstrip]
    exact ⟨List.prefix_refl _, hlast⟩

theorem head?_of_prefix_ne_nil {l₁ l₂ : List Char} (h : l₁ <+: l₂) (hne : l₁ ≠ []) :
    l₁.head? = l₂.head? := by
  obtain ⟨t, rfl⟩ := h
  cases l₁ with
  | nil => exact absurd rfl hne
  | cons a l₁ => rfl

/-- C6.  For every input line the cleaned line contains no comma, no two
consecutive spaces, and neither begins nor ends with a space; every whitespace
character left in it is a plain space; it is the cleaned line of every report
the program produces; on `"ab,  cd 12"` the cleaned line is `"ab cd 12"`. -/
theorem clean_is_normalised (line : List Char) :
    ',' ∉ InputManage.clean line ∧
    ¬ ([' ', ' '] <:+: InputManage.clean line) ∧
    (InputManage.clean line).head? ≠ some ' ' ∧
    (InputManage.clean line).getLast? ≠ some ' ' ∧
    (∀ c ∈ InputManage.clean line, InputManage.isspace c = true → c = ' ') ∧
    (∀ r, InputManage.main line = some r → r.cleaned = InputManage.clean line) ∧
    InputManage.clean "ab,  cd 12".toList = "ab cd 12".toList := by
  obtain ⟨h1, h2, h3⟩ := collapseLoop_invariant (InputManage.commaLoop line) [] false
    (comma_not_mem_commaLoop line) (List.not_mem_nil _) List.chain'_nil (by simp)
    (fun c hc => absurd hc (List.not_mem_nil _))
  obtain ⟨f1, f2⟩ := stripFront_spec _ h2
  have hchF := h2.suffix f1
  obtain ⟨b1, b2⟩ := stripBack_spec _ hchF
  have hsub : (InputManage.clean line).Sublist
      (InputManage.collapseLoop (InputManage.commaLoop line) [] false) :=
    b1.sublist.trans f1.sublist
  have hch : List.Chain' (fun x y => ¬ (x = ' ' ∧ y = ' ')) (InputManage.clean line) :=
    List.Chain'.prefix hchF b1
  refine ⟨fun h => h1 (hsub.subset h), ?_, ?_, b2, fun c hc => h3 c (hsub.subset hc), ?_,
    by decide⟩
  · intro hin
    have := List.Chain'.infix hch hin
    rw [List.chain'_cons] at this
    exact this.1 ⟨rfl, rfl⟩
  · by_cases hne : InputManage.clean line = []
    · rw [hne]
      simp
    · have := head?_of_prefix_ne_nil b1 hne
      unfold InputManage.clean at this ⊢
      rw [this]
      exact f2
  · intro r hr
    unfold InputManage.main at hr
    cases hk : InputManage.countLoop line ⟨0, 0, 0⟩ with
    | none => simp [hk] at hr
    | some k =>
      simp only [hk, Option.some.injEq] at hr
      rw [← hr]

/-! ## String character substitution: `modifyX` -/

theorem modifyXLoop_append (suf : List Char) :
    ∀ pre : List Char, (∀ c ∈ suf, c.toNat < 128) →
      StringEdit.modifyXLoop (pre ++ suf) pre.length =
        some (pre ++ suf.map (fun c => if InputManage.isalpha c = true then 'X' else c)) := by
  induction suf with
  | nil =>
    intro pre _
    rw [StringEdit.modifyXLoop]
    simp
  | cons c suf ih =>
    intro pre hascii
    have hc128 : c.toNat < 128 := hascii c (List.mem_cons_self _ _)
    have hsuf : ∀ d ∈ suf, d.toNat < 128 := fun d hd => hascii d (List.mem_cons_of_mem _ hd)
    have hget : (pre ++ c :: suf)[pre.length]? = some c := by
      rw [List.getElem?_append_right (Nat.le_refl _)]
      simp
    have hset : (pre ++ c :: suf).set pre.length 'X' = (pre ++ ['X']) ++ suf := by simp
    have hsame : pre ++ c :: suf = (pre ++ [c]) ++ suf := by simp
    have hlen : ∀ x : Char, pre.length + 1 = (pre ++ [x]).length := by simp
    rw [StringEdit.modifyXLoop]
    simp only [List.length_append, List.length_cons, Nat.lt_add_right_iff_pos, Nat.succ_pos,
      if_true, hget, StringEdit.isalphaOfChar, hc128]
    by_cases hc : InputManage.isalpha c = true
    · simp only [hc, if_true, List.map_cons]
      rw [hset, hlen 'X', ih (pre ++ ['X']) hsuf]
      simp
    · have hc' : InputManage.isalpha c = false := by simpa using hc
      simp only [hc', List.map_cons, Bool.false_eq_true, if_false]
      rw [hsame, hlen c, ih (pre ++ [c]) hsuf]
      simp

/-- C11.  For every ASCII string `s`, `modifyX` returns a string of the same
length whose character at every index is `'X'` where `s` has a letter and the
character of `s` otherwise; on the literal `"vector_and_arrays"` the result is
the 17 characters `"XXXXXX_XXX_XXXXXX"`, the two underscores staying at
indices 6 and 10. -/
theorem modifyX_pointwise (s : List Char) (hascii : ∀ c ∈ s, c.toNat < 128) :
    (∃ t : List Char, StringEdit.modifyX s = some t ∧ t.length = s.length ∧
      ∀ i : Nat, t[i]? =
        (s[i]?).map (fun c => if InputManage.isalpha c = true then 'X' else c)) ∧
    StringEdit.modifyX StringEdit.literal = some "XXXXXX_XXX_XXXXXX".toList ∧
    ("XXXXXX_XXX_XXXXXX".toList).length = 17 ∧
    ("XXXXXX_XXX_XXXXXX".toList)[6]? = some '_' ∧
    ("XXXXXX_XXX_XXXXXX".toList)[10]? = some '_' := by
  refine ⟨⟨s.map (fun c => if InputManage.isalpha c = true then 'X' else c), ?_, ?_, ?_⟩,
    ?_, by decide, by decide, by decide⟩
  · have h := modifyXLoop_append s [] hascii
    simpa [StringEdit.modifyX] using h
  · simp
  · intro i
    exact List.getElem?_map _ _ _
  · simp [StringEdit.modifyX, StringEdit.literal, StringEdit.modifyXLoop,
      StringEdit.isalphaOfChar, InputManage.isalpha]

theorem modifyX_pointwise_witness :
    (∀ c ∈ StringEdit.literal, c.toNat < 128) ∧
    ((∃ t : List Char, StringEdit.modifyX StringEdit.literal = some t ∧
      t.length = StringEdit.literal.length ∧
      ∀ i : Nat, t[i]? =
        (StringEdit.literal[i]?).map (fun c => if InputManage.isalpha c = true then 'X' else c)) ∧
    StringEdit.modifyX StringEdit.literal = some "XXXXXX_XXX_XXXXXX".toList ∧
    ("XXXXXX_XXX_XXXXXX".toList).length = 17 ∧
    ("XXXXXX_XXX_XXXXXX".toList)[6]? = some '_' ∧
    ("XXXXXX_XXX_XXXXXX".toList)[10]? = some '_') :=
  ⟨by decide, modifyX_pointwise StringEdit.literal (by decide)⟩

/-! ## Binary64 floating point -/

theorem double_add_finite (a b : Rat) :
    Double.add (Double.finite a) (Double.finite b) = Double.round (a + b) := rfl

theorem double_round_zero : Double.round 0 = Double.finite 0 := by
  simp [Double.round]

theorem double_div_finite (a b : Rat) (hb : b ≠ 0) :
    Double.div (Double.finite a) (Double.finite b) = Double.round (a / b) := by
  simp [Double.div, hb]

/-! ## Student report -/

theorem accumulate_eq_foldl (scores : List Double) :
    ∀ init : Double, StudentReport.accumulate scores init = scores.foldl Double.add init := by
  induction scores with
  | nil =>
    intro init
    rfl
  | cons x rest ih =>
    intro init
    simp [StudentReport.accumulate, ih]

theorem accumulate_exact (qs : List Rat) :
    ∀ init : Rat, (∀ n : Nat, n ≤ qs.length → isBinary64 (init + (qs.take n).sum)) →
      StudentReport.accumulate (qs.map Double.finite) (Double.finite init) =
        Double.finite (init + qs.sum) := by
  induction qs with
  | nil =>
    intro init _
    simp [StudentReport.accumulate]
  | cons q rest ih =>
    intro init h
    have h1 : Double.round (init + q) = Double.finite (init + q) := by
      have := h 1 (by simp)
      simpa [isBinary64] using this
    have hrest : ∀ n : Nat, n ≤ rest.length → isBinary64 (init + q + (rest.take n).sum) := by
      intro n hn
      have := h (n + 1) (by simp [hn])
      simpa [add_assoc] using this
    simp only [List.map_cons, StudentReport.accumulate, double_add_finite, h1]
    rw [ih (init + q) hrest]
    simp [add_assoc]

theorem scores_foldl_addScore (scores : List Double) :
    ∀ st : StudentReport.Student,
      scores.foldl StudentReport.Student.addScore st =
        { st with scores_ := st.scores_ ++ scores } := by
  induction scores with
  | nil =>
    intro st
    simp
  | cons x rest ih =>
    intro st
    simp [List.foldl_cons, ih, StudentReport.Student.addScore]

theorem average_of_nonempty (st : StudentReport.Student) (hne : st.scores_ ≠ []) :
    (StudentReport.Student.average st).1 =
      some (Double.div (StudentReport.accumulate st.scores_ (Double.finite 0))
        (Double.ofNat st.scores_.length)) := by
  have hlen : st.scores_.length ≠ 0 := fun h => hne (List.length_eq_zero.mp h)
  have hemp : st.scores_.isEmpty = false := by
    cases hs : st.scores_ with
    | nil => exact absurd hs hne
    | cons x rest => rfl
  simp [StudentReport.Student.average, hemp, StudentReport.divide, hlen]

theorem average_of_exact (name : List Char) (id : Int) (qs : List Rat) (hne : qs ≠ [])
    (hsums : exactSums qs) (hlen : isBinary64 (qs.length : Rat)) :
    (StudentReport.Student.average ((qs.map Double.finite).foldl
        StudentReport.Student.addScore (StudentReport.Student.new name id))).1 =
      some (Double.round (qs.sum / (qs.length : Rat))) := by
  have hlen0 : (qs.length : Rat) ≠ 0 := by
    have : qs.length ≠ 0 := fun h => hne (List.length_eq_zero.mp h)
    exact_mod_cast this
  have hacc := accumulate_exact qs 0 (by
    intro n hn
    simpa using hsums n hn)
  rw [scores_foldl_addScore, average_of_nonempty _ (by simp [StudentReport.Student.new, hne])]
  simp only [StudentReport.Student.new, List.nil_append, hacc, zero_add, List.length_map,
    Double.ofNat]
  rw [show Double.round (qs.length : Rat) = Double.finite (qs.length : Rat) from hlen,
    double_div_finite _ _ hlen0]

theorem student_main_value :
    StudentReport.main =
      ("Alice".toList, 12345, some (Double.finite (6004799503160661 / 70368744177664))) := by
  decide!

/-- C12.  For every name and id, `average()` of a newly constructed student is
0.0, returned by the guard on the empty score sequence; for every student
`average()` has a defined value, so the division, which is undefined for a
zero count, is never reached with one. -/
theorem student_new_average_zero (name : List Char) (id : Int) :
    (StudentReport.Student.average (StudentReport.Student.new name id)).1 =
      some (Double.finite 0) ∧
    (StudentReport.Student.new name id).scores_ = [] ∧
    (∀ sum : Double, StudentReport.divide sum 0 = none) ∧
    (∀ st : StudentReport.Student, ∃ v, (StudentReport.Student.average st).1 = some v) := by
  refine ⟨rfl, rfl, fun _ => rfl, ?_⟩
  intro st
  by_cases hne : st.scores_ = []
  · exact ⟨Double.finite 0, by simp [StudentReport.Student.average, hne]⟩
  · exact ⟨_, average_of_nonempty st hne⟩

/-- C13 (as the code behaves).  For every student and every non-empty sequence
of scores added with `addScore`, `average()` is the binary64 quotient of the
left-to-right binary64 sum of all scores added so far by their count.  For a
new student and scores whose running sums and count are binary64 values, it is
the arithmetic mean rounded once to binary64, the same for every insertion
order whose running sums are binary64 values.  After adding 85.5, 92.0, 78.5
to the new student of `main` the average is the binary64 value nearest 256/3,
6004799503160661/2^46, within 2^-47 of 256/3. -/
theorem student_average_is_rounded_mean (name : List Char) (id : Int) (qs : List Rat)
    (hne : qs ≠ []) (hsums : exactSums qs) (hlen : isBinary64 (qs.length : Rat)) :
    (StudentReport.Student.average ((qs.map Double.finite).foldl
        StudentReport.Student.addScore (StudentReport.Student.new name id))).1 =
      some (Double.round (qs.sum / (qs.length : Rat))) ∧
    (∀ qs' : List Rat, qs'.Perm qs → exactSums qs' →
      (StudentReport.Student.average ((qs'.map Double.finite).foldl
        StudentReport.Student.addScore (StudentReport.Student.new name id))).1 =
      (StudentReport.Student.average ((qs.map Double.finite).foldl
        StudentReport.Student.addScore (StudentReport.Student.new name id))).1) ∧
    (∀ (st : StudentReport.Student) (ds : List Double), ds ≠ [] →
      (StudentReport.Student.average (ds.foldl StudentReport.Student.addScore st)).1 =
        some (Double.div ((st.scores_ ++ ds).foldl Double.add (Double.finite 0))
          (Double.ofNat (st.scores_ ++ ds).length))) ∧
    StudentReport.main =
      ("Alice".toList, 12345, some (Double.finite (6004799503160661 / 70368744177664))) ∧
    Double.round (256 / 3) = Double.finite (6004799503160661 / 70368744177664) ∧
    |(6004799503160661 / 70368744177664 : Rat) - 256 / 3| ≤ 1 / 2 ^ 47 := by
  refine ⟨average_of_exact name id qs hne hsums hlen, ?_, ?_, student_main_value, by decide!,
    ?_⟩
  · intro qs' hperm hsums'
    have hne' : qs' ≠ [] := by
      intro h
      rw [h] at hperm
      exact hne (List.Perm.nil_eq hperm).symm
    have hlen' : isBinary64 (qs'.length : Rat) := by
      rw [hperm.length_eq]
      exact hlen
    rw [average_of_exact name id qs hne hsums hlen,
      average_of_exact name id qs' hne' hsums' hlen', hperm.sum_eq, hperm.length_eq]
  · intro st ds hds
    rw [scores_foldl_addScore, average_of_nonempty _ (by simp [hds]), accumulate_eq_foldl]
  · rw [abs_le]
    constructor <;> norm_num

theorem student_average_is_rounded_mean_witness :
    ([85.5, 92.0, 78.5] : List Rat) ≠ [] ∧ exactSums [85.5, 92.0, 78.5] ∧
    isBinary64 ((([85.5, 92.0, 78.5] : List Rat).length : Nat) : Rat) ∧
    (StudentReport.Student.average ((([85.5, 92.0, 78.5] : List Rat).map Double.finite).foldl
        StudentReport.Student.addScore (StudentReport.Student.new "Alice".toList 12345))).1 =
      some (Double.round (([85.5, 92.0, 78.5] : List Rat).sum /
        ((([85.5, 92.0, 78.5] : List Rat).length : Nat) : Rat))) :=
  ⟨by simp, by decide!, by decide!,
    (student_average_is_rounded_mean "Alice".toList 12345 [85.5, 92.0, 78.5] (by simp)
      (by decide!) (by decide!)).1⟩

/-- C13 (the claim as stated fails).  The average `main` reports is not 256/3;
and the scores 1e16, 1, -1e16, whose arithmetic mean is 1/3, give the average
0 when added in this order and the binary64 value nearest 1/3 when added in
the order 1e16, -1e16, 1. -/
theorem student_average_not_exact_mean :
    StudentReport.main ≠ ("Alice".toList, 12345, some (Double.finite (256 / 3))) ∧
    (StudentReport.Student.average
      ([Double.lit 1e16, Double.lit 1, Double.lit (-1e16)].foldl
        StudentReport.Student.addScore (StudentReport.Student.new [] 0))).1 =
      some (Double.finite 0) ∧
    (StudentReport.Student.average
      ([Double.lit 1e16, Double.lit (-1e16), Double.lit 1].foldl
        StudentReport.Student.addScore (StudentReport.Student.new [] 0))).1 =
      some (Double.finite (6004799503160661 / 18014398509481984)) ∧
    ((1e16 : Rat) + 1 + -1e16) / 3 = 1 / 3 := by
  refine ⟨by decide!, by decide!, by decide!, by norm_num⟩

/-- C20.  For every student `st` and score `s`, `addScore(s)` leaves name and
id unchanged and makes the score sequence the old one followed by `s`: its
length grows by one and every earlier score stays at its index; `name()`,
`id()` and `average()` leave the student as it was. -/
theorem addScore_only_appends (st : StudentReport.Student) (s : Double) :
    (StudentReport.Student.addScore st s).name_ = st.name_ ∧
    (StudentReport.Student.addScore st s).id_ = st.id_ ∧
    (StudentReport.Student.addScore st s).scores_ = st.scores_ ++ [s] ∧
    (StudentReport.Student.addScore st s).scores_.length = st.scores_.length + 1 ∧
    (StudentReport.Student.addScore st s).scores_.take st.scores_.length = st.scores_ ∧
    (StudentReport.Student.addScore st s).scores_[st.scores_.length]? = some s ∧
    (StudentReport.Student.name st).2 = st ∧
    (StudentReport.Student.id st).2 = st ∧
    (StudentReport.Student.average st).2 = st ∧
    (StudentReport.Student.name st).1 = st.name_ ∧
    (StudentReport.Student.id st).1 = st.id_ := by
  refine ⟨rfl, rfl, rfl, ?_, ?_, ?_, rfl, rfl, ?_, rfl, rfl⟩
  · simp [StudentReport.Student.addScore]
  · simp [StudentReport.Student.addScore]
  · simp [StudentReport.Student.addScore]
  · unfold StudentReport.Student.average
    split <;> rfl

/-! ## Score comparison -/

theorem list_of_length_eight {a : List Int} (h : a.length = 8) :
    ∃ x0 x1 x2 x3 x4 x5 x6 x7 : Int, a = [x0, x1, x2, x3, x4, x5, x6, x7] := by
  rcases a with _ | ⟨x0, _ | ⟨x1, _ | ⟨x2, _ | ⟨x3, _ | ⟨x4, _ | ⟨x5, _ | ⟨x6, _ | ⟨x7,
    _ | ⟨x8, a⟩⟩⟩⟩⟩⟩⟩⟩⟩ <;>
    simp only [List.length_nil, List.length_cons] at h <;> try omega
  exact ⟨x0, x1, x2, x3, x4, x5, x6, x7, rfl⟩

/-- C16.  For every 8-element array `a` the reversal loop ends after 4 swaps
without leaving the array, and the array it leaves has at every index `i` of
`[0,8)` the original `a[7-i]`: it is the reverse of `a`, with the same
multiset of elements. -/
theorem reverseLoop_reverses (a : List Int) (hlen : a.length = 8) :
    ∃ r : List Int, SomeArth.reverseLoop a 0 7 0 = some (r, 4) ∧ r.length = 8 ∧
      (∀ i : Nat, i < 8 → r[i]? = a[7 - i]?) ∧
      r = a.reverse ∧ (r : Multiset Int) = (a : Multiset Int) := by
  obtain ⟨x0, x1, x2, x3, x4, x5, x6, x7, rfl⟩ := list_of_length_eight hlen
  refine ⟨[x7, x6, x5, x4, x3, x2, x1, x0], ?_, rfl, ?_, ?_, ?_⟩
  · simp [SomeArth.reverseLoop, SomeArth.readAt, SomeArth.writeAt]
  · intro i hi
    interval_cases i <;> rfl
  · simp
  · rw [Multiset.coe_eq_coe]
    exact (List.reverse_perm [x0, x1, x2, x3, x4, x5, x6, x7])

theorem reverseLoop_reverses_witness :
    SomeArth.a.length = 8 ∧
    ∃ r : List Int, SomeArth.reverseLoop SomeArth.a 0 7 0 = some (r, 4) ∧ r.length = 8 ∧
      (∀ i : Nat, i < 8 → r[i]? = SomeArth.a[7 - i]?) ∧
      r = SomeArth.a.reverse ∧ (r : Multiset Int) = (SomeArth.a : Multiset Int) :=
  ⟨by decide, reverseLoop_reverses SomeArth.a (by decide)⟩

/-- C17.  A read or write at offset `i` of an 8-element array is defined
exactly for `i` in `[0,8)`.  For every 8-element array whose running sums are
representable as `int`, the whole program runs to its end with every access
defined: the reversal loop stops after exactly 4 swaps, the zeroing loop after
writing exactly the offsets 2, 3, 4, 5, and the print loop after printing the
8 elements; the reversal, zeroing and print loops do so whatever the
content. -/
theorem someArth_accesses_in_bounds (a : List Int) (hlen : a.length = 8)
    (hsum : ∀ n : Nat, n ≤ 8 → inInt ((a.take n).sum)) :
    (∀ i : Int, (SomeArth.readAt a i).isSome = true ↔ (0 ≤ i ∧ i < 8)) ∧
    (∀ (i v : Int), (SomeArth.writeAt a i v).isSome = true ↔ (0 ≤ i ∧ i < 8)) ∧
    (∃ r, SomeArth.run a = some r ∧ r.sum = a.sum ∧ r.swaps = 4 ∧
      r.zeroed = [2, 3, 4, 5] ∧ r.final.length = 8 ∧ r.printed = r.final) ∧
    (∃ r, SomeArth.reverseLoop a 0 7 0 = some (r, 4)) ∧
    (∃ r, SomeArth.zeroLoop a 2 [] = some (r, [2, 3, 4, 5]) ∧ r.length = 8) ∧
    SomeArth.printLoop a 0 [] = some a := by
  obtain ⟨x0, x1, x2, x3, x4, x5, x6, x7, rfl⟩ := list_of_length_eight hlen
  have h1 := checked_of_inInt (hsum 1 (by norm_num))
  have h2 := checked_of_inInt (hsum 2 (by norm_num))
  have h3 := checked_of_inInt (hsum 3 (by norm_num))
  have h4 := checked_of_inInt (hsum 4 (by norm_num))
  have h5 := checked_of_inInt (hsum 5 (by norm_num))
  have h6 := checked_of_inInt (hsum 6 (by norm_num))
  have h7 := checked_of_inInt (hsum 7 (by norm_num))
  have h8 := checked_of_inInt (hsum 8 (by norm_num))
  simp only [List.take_succ_cons, List.take_zero, List.sum_cons, List.sum_nil, add_zero,
    ← add_assoc] at h1 h2 h3 h4 h5 h6 h7 h8
  have hrev : SomeArth.reverseLoop [x0, x1, x2, x3, x4, x5, x6, x7] 0 7 0 =
      some ([x7, x6, x5, x4, x3, x2, x1, x0], 4) := by
    simp [SomeArth.reverseLoop, SomeArth.readAt, SomeArth.writeAt]
  have hzero : ∀ y0 y1 y2 y3 y4 y5 y6 y7 : Int,
      SomeArth.zeroLoop [y0, y1, y2, y3, y4, y5, y6, y7] 2 [] =
        some ([y0, y1, 0, 0, 0, 0, y6, y7], [2, 3, 4, 5]) := by
    intro y0 y1 y2 y3 y4 y5 y6 y7
    simp [SomeArth.zeroLoop, SomeArth.writeAt]
  have hprint : ∀ y0 y1 y2 y3 y4 y5 y6 y7 : Int,
      SomeArth.printLoop [y0, y1, y2, y3, y4, y5, y6, y7] 0 [] =
        some [y0, y1, y2, y3, y4, y5, y6, y7] := by
    intro y0 y1 y2 y3 y4 y5 y6 y7
    simp [SomeArth.printLoop, SomeArth.readAt]
  have hsumLoop : SomeArth.sumLoop [x0, x1, x2, x3, x4, x5, x6, x7] 0 0 =
      some (x0 + x1 + x2 + x3 + x4 + x5 + x6 + x7) := by
    simp [SomeArth.sumLoop, SomeArth.readAt, h1, h2, h3, h4, h5, h6, h7, h8]
  refine ⟨?_, ?_, ?_, ⟨_, hrev⟩, ⟨_, hzero _ _ _ _ _ _ _ _, rfl⟩, hprint _ _ _ _ _ _ _ _⟩
  · intro i
    by_cases hi : 0 ≤ i ∧ i < 8
    · have hn : i.toNat < 8 := by omega
      simp [SomeArth.readAt, hi, List.getElem?_eq_getElem, hn]
    · simp [SomeArth.readAt, hi]
  · intro i v
    by_cases hi : 0 ≤ i ∧ i < 8
    · simp [SomeArth.writeAt, hi]
    · simp [SomeArth.writeAt, hi]
  · refine ⟨⟨x0 + x1 + x2 + x3 + x4 + x5 + x6 + x7, [x7, x6, x5, x4, x3, x2, x1, x0], 4,
      [x7, x6, 0, 0, 0, 0, x1, x0], [2, 3, 4, 5], [x7, x6, 0, 0, 0, 0, x1, x0]⟩, ?_, ?_, rfl, rfl,
      rfl, rfl⟩
    · simp only [SomeArth.run, hsumLoop, hrev, hzero, hprint]
    · simp [add_assoc]

theorem someArth_accesses_in_bounds_witness :
    SomeArth.a.length = 8 ∧
    (∀ n : Nat, n ≤ 8 → inInt ((SomeArth.a.take n).sum)) ∧
    ((∀ i : Int, (SomeArth.readAt SomeArth.a i).isSome = true ↔ (0 ≤ i ∧ i < 8)) ∧
    (∀ (i v : Int), (SomeArth.writeAt SomeArth.a i v).isSome = true ↔ (0 ≤ i ∧ i < 8)) ∧
    (∃ r, SomeArth.run SomeArth.a = some r ∧ r.sum = SomeArth.a.sum ∧ r.swaps = 4 ∧
      r.zeroed = [2, 3, 4, 5] ∧ r.final.length = 8 ∧ r.printed = r.final) ∧
    (∃ r, SomeArth.reverseLoop SomeArth.a 0 7 0 = some (r, 4)) ∧
    (∃ r, SomeArth.zeroLoop SomeArth.a 2 [] = some (r, [2, 3, 4, 5]) ∧ r.length = 8) ∧
    SomeArth.printLoop SomeArth.a 0 [] = some SomeArth.a) :=
  ⟨by decide, by decide,
    someArth_accesses_in_bounds SomeArth.a (by decide) (by decide)⟩

/-! ## Line analyzer: algebra of the cleaning steps -/

theorem commaLoop_of_no_comma (l : List Char) (h : ',' ∉ l) : InputManage.commaLoop l = l := by
  induction l with
  | nil => rfl
  | cons c rest ih =>
    have hc : c ≠ ',' := fun e => h (e ▸ List.mem_cons_self _ _)
    have hrest : ',' ∉ rest := fun e => h (List.mem_cons_of_mem _ e)
    simp [InputManage.commaLoop, hc, ih hrest]

theorem commaLoop_append (l₁ l₂ : List Char) :
    InputManage.commaLoop (l₁ ++ l₂) = InputManage.commaLoop l₁ ++ InputManage.commaLoop l₂ := by
  simp [commaLoop_eq_map]

theorem collapseLoop_acc (l : List Char) :
    ∀ (cleaned : List Char) (f : Bool),
      InputManage.collapseLoop l cleaned f = cleaned ++ InputManage.collapseLoop l [] f := by
  induction l with
  | nil =>
    intro cleaned f
    simp [InputManage.collapseLoop]
  | cons c rest ih =>
    intro cleaned f
    by_cases hsp : InputManage.isspace c = true
    · cases f with
      | false =>
        simp only [InputManage.collapseLoop, hsp, if_true, Bool.not_false]
        rw [ih (cleaned ++ [' ']) true, ih ([] ++ [' ']) true]
        simp
      | true =>
        simp only [InputManage.collapseLoop, hsp, if_true, Bool.not_true, Bool.false_eq_true,
          if_false]
        exact ih cleaned true
    · simp only [InputManage.collapseLoop, hsp, Bool.false_eq_true, if_false]
      rw [ih (cleaned ++ [c]) false, ih ([] ++ [c]) false]
      simp

theorem collapseLoop_fixed (l : List Char) :
    ∀ (cleaned : List Char) (f : Bool),
      (∀ c ∈ l, InputManage.isspace c = true → c = ' ') →
      List.Chain' (fun x y => ¬ (x = ' ' ∧ y = ' ')) l →
      (f = true → l.head? ≠ some ' ') →
      InputManage.collapseLoop l cleaned f = cleaned ++ l := by
  induction l with
  | nil =>
    intro cleaned f _ _ _
    simp [InputManage.collapseLoop]
  | cons c rest ih =>
    intro cleaned f hws hch hf
    have hws' : ∀ d ∈ rest, InputManage.isspace d = true → d = ' ' :=
      fun d hd => hws d (List.mem_cons_of_mem _ hd)
    have hch' : List.Chain' (fun x y => ¬ (x = ' ' ∧ y = ' ')) rest := hch.tail
    by_cases hsp : InputManage.isspace c = true
    · have hc : c = ' ' := hws c (List.mem_cons_self _ _) hsp
      subst hc
      have hfalse : f = false := by
        cases f with
        | false => rfl
        | true => exact absurd rfl (hf rfl)
      subst hfalse
      simp only [InputManage.collapseLoop, hsp, if_true, Bool.not_false]
      rw [ih (cleaned ++ [' ']) true hws' hch' ?_]
      · simp
      · intro _ hhead
        cases rest with
        | nil => simp at hhead
        | cons d rest =>
          simp only [List.head?_cons, Option.some.injEq] at hhead
          rw [List.chain'_cons] at hch
          exact hch.1 ⟨rfl, hhead⟩
    · simp only [InputManage.collapseLoop, hsp, Bool.false_eq_true, if_false]
      rw [ih (cleaned ++ [c]) false hws' hch' (fun h => absurd h (by simp))]
      simp

theorem stripFront_of_head (l : List Char) (h : l.head? ≠ some ' ') :
    InputManage.stripFront l = l := by
  cases l with
  | nil => rfl
  | cons c rest =>
    have hc : c ≠ ' ' := fun e => h (by simp [e])
    simp [InputManage.stripFront, hc]

theorem stripBack_of_last (l : List Char) (h : l.getLast? ≠ some ' ') :
    InputManage.stripBack l = l := by
  simp [InputManage.stripBack, h]

theorem clean_shape (line : List Char) :
    ',' ∉ InputManage.clean line ∧
    List.Chain' (fun x y => ¬ (x = ' ' ∧ y = ' ')) (InputManage.clean line) ∧
    (InputManage.clean line).head? ≠ some ' ' ∧
    (InputManage.clean line).getLast? ≠ some ' ' ∧
    (∀ c ∈ InputManage.clean line, InputManage.isspace c = true → c = ' ') := by
  obtain ⟨h1, h2, h3⟩ := collapseLoop_invariant (InputManage.commaLoop line) [] false
    (comma_not_mem_commaLoop line) (List.not_mem_nil _) List.chain'_nil (by simp)
    (fun c hc => absurd hc (List.not_mem_nil _))
  obtain ⟨f1, f2⟩ := stripFront_spec _ h2
  have hchF := List.Chain'.suffix h2 f1
  obtain ⟨b1, b2⟩ := stripBack_spec _ hchF
  have hsub : (InputManage.clean line).Sublist
      (InputManage.collapseLoop (InputManage.commaLoop line) [] false) :=
    b1.sublist.trans f1.sublist
  refine ⟨fun h => h1 (hsub.subset h), List.Chain'.prefix hchF b1, ?_, b2,
    fun c hc => h3 c (hsub.subset hc)⟩
  by_cases hne : InputManage.clean line = []
  · rw [hne]
    simp
  · have := head?_of_prefix_ne_nil b1 hne
    unfold InputManage.clean at this ⊢
    rw [this]
    exact f2

/-- C18.  The cleaning steps are idempotent: for every input line, cleaning
the cleaned line gives the cleaned line again; so `"ab cd 12"`, the cleaned
form of `"ab,  cd 12"`, is left as it is. -/
theorem clean_idempotent (line : List Char) :
    InputManage.clean (InputManage.clean line) = InputManage.clean line ∧
    InputManage.clean (InputManage.clean "ab,  cd 12".toList) = "ab cd 12".toList ∧
    InputManage.clean (InputManage.clean " ,\t x ,, y  ".toList) =
      InputManage.clean " ,\t x ,, y  ".toList := by
  refine ⟨?_, by decide, by decide⟩
  obtain ⟨hcomma, hch, hhead, hlast, hws⟩ := clean_shape line
  have hcollapse :
      InputManage.collapseLoop (InputManage.commaLoop (InputManage.clean line)) [] false =
        InputManage.clean line := by
    rw [commaLoop_of_no_comma _ hcomma,
      collapseLoop_fixed _ [] false hws hch (fun h => absurd h (by simp))]
    simp
  have hstep : InputManage.clean (InputManage.clean line) =
      InputManage.stripBack (InputManage.stripFront (InputManage.clean line)) := by
    show InputManage.stripBack (InputManage.stripFront (InputManage.collapseLoop
      (InputManage.commaLoop (InputManage.clean line)) [] false)) = _
    rw [hcollapse]
  rw [hstep, stripFront_of_head _ hhead, stripBack_of_last _ hlast]

theorem collapseLoop_through_content (l₁ : List Char) :
    ∀ (l₂ cleaned : List Char) (f : Bool) (x : Char), InputManage.isspace x = false →
      InputManage.collapseLoop (l₁ ++ x :: l₂) cleaned f =
        InputManage.collapseLoop l₂ (InputManage.collapseLoop l₁ cleaned f ++ [x]) false := by
  induction l₁ with
  | nil =>
    intro l₂ cleaned f x hx
    simp [InputManage.collapseLoop, hx]
  | cons c rest ih =>
    intro l₂ cleaned f x hx
    by_cases hsp : InputManage.isspace c = true
    · cases f with
      | false =>
        simp only [List.cons_append, InputManage.collapseLoop, hsp, if_true, Bool.not_false]
        exact ih l₂ _ true x hx
      | true =>
        simp only [List.cons_append, InputManage.collapseLoop, hsp, if_true, Bool.not_true,
          Bool.false_eq_true, if_false]
        exact ih l₂ _ true x hx
    · simp only [List.cons_append, InputManage.collapseLoop, hsp, Bool.false_eq_true, if_false]
      exact ih l₂ _ false x hx

theorem collapseLoop_whitespace_run (w : List Char) :
    ∀ (t : List Char), (∀ c ∈ w, InputManage.isspace c = true) →
      InputManage.collapseLoop (w ++ t) [] true = InputManage.collapseLoop t [] true ∧
      (w ≠ [] →
        InputManage.collapseLoop (w ++ t) [] false = ' ' :: InputManage.collapseLoop t [] true) := by
  induction w with
  | nil =>
    intro t _
    exact ⟨rfl, fun h => absurd rfl h⟩
  | cons c rest ih =>
    intro t hw
    have hc : InputManage.isspace c = true := hw c (List.mem_cons_self _ _)
    have hrest : ∀ d ∈ rest, InputManage.isspace d = true :=
      fun d hd => hw d (List.mem_cons_of_mem _ hd)
    obtain ⟨ih1, -⟩ := ih t hrest
    constructor
    · simp only [List.cons_append, InputManage.collapseLoop, hc, if_true, Bool.not_true,
        Bool.false_eq_true, if_false]
      exact ih1
    · intro _
      simp only [List.cons_append, InputManage.collapseLoop, hc, if_true, Bool.not_false]
      rw [collapseLoop_acc]
      simp only [List.append_eq, ih1]
      simp

theorem stripFront_append (u v : List Char) (hu : u ≠ []) :
    InputManage.stripFront (u ++ v) = InputManage.stripFront u ++ v := by
  cases u with
  | nil => exact absurd rfl hu
  | cons c rest =>
    by_cases hc : c = ' '
    · simp [InputManage.stripFront, hc]
    · simp [InputManage.stripFront, hc]

theorem stripBack_append (u v : List Char) (hv : v ≠ []) :
    InputManage.stripBack (u ++ v) = u ++ InputManage.stripBack v := by
  have hlast : (u ++ v).getLast? = v.getLast? := by
    rw [List.getLast?_append]
    cases h : v.getLast? with
    | none => exact absurd (List.getLast?_eq_none_iff.mp h) hv
    | some a => rfl
  have huv : u ++ v ≠ [] := by simp [hv]
  by_cases hsp : v.getLast? = some ' '
  · simp [InputManage.stripBack, hlast, hsp, hv, List.dropLast_append_of_ne_nil _ hv]
  · simp [InputManage.stripBack, hlast, hsp]

theorem stripFront_filter (l : List Char) :
    (InputManage.stripFront l).filter (fun c => decide (c ≠ ' ')) =
      l.filter (fun c => decide (c ≠ ' ')) := by
  cases l with
  | nil => rfl
  | cons c rest =>
    by_cases hc : c = ' '
    · simp [InputManage.stripFront, hc]
    · simp [InputManage.stripFront, hc]

theorem stripBack_filter (l : List Char) :
    (InputManage.stripBack l).filter (fun c => decide (c ≠ ' ')) =
      l.filter (fun c => decide (c ≠ ' ')) := by
  by_cases hsp : l.getLast? = some ' '
  · have hne : l ≠ [] := by
      rintro rfl
      simp at hsp
    have hsplit : l.dropLast ++ [' '] = l := List.dropLast_append_getLast? _ hsp
    have hstrip : InputManage.stripBack l = l.dropLast := by
      simp [InputManage.stripBack, hsp, hne]
    rw [hstrip]
    conv_rhs => rw [← hsplit]
    simp
  · rw [stripBack_of_last l hsp]

theorem collapseLoop_filter (l : List Char) :
    ∀ (cleaned : List Char) (f : Bool),
      (InputManage.collapseLoop l cleaned f).filter (fun c => decide (c ≠ ' ')) =
        cleaned.filter (fun c => decide (c ≠ ' ')) ++
          l.filter (fun c => !InputManage.isspace c) := by
  induction l with
  | nil =>
    intro cleaned f
    simp [InputManage.collapseLoop]
  | cons c rest ih =>
    intro cleaned f
    by_cases hsp : InputManage.isspace c = true
    · cases f with
      | false =>
        simp only [InputManage.collapseLoop, hsp, if_true, Bool.not_false]
        rw [ih]
        simp [hsp]
      | true =>
        simp only [InputManage.collapseLoop, hsp, if_true, Bool.not_true, Bool.false_eq_true,
          if_false]
        rw [ih]
        simp [hsp]
    · have hc : c ≠ ' ' := fun e => hsp (e ▸ isspace_space)
      simp only [InputManage.collapseLoop, hsp, Bool.false_eq_true, if_false]
      rw [ih]
      simp [hsp, hc]

theorem commaLoop_filter (l : List Char) :
    (InputManage.commaLoop l).filter (fun c => !InputManage.isspace c) =
      l.filter (fun c => !InputManage.isspace c && decide (c ≠ ',')) := by
  induction l with
  | nil => rfl
  | cons c rest ih =>
    by_cases hc : c = ','
    · subst hc
      simp [InputManage.commaLoop, ih, isspace_space]
    · by_cases hsp : InputManage.isspace c = true
      · simp [InputManage.commaLoop, hc, ih, List.filter_cons, hsp]
      · simp [InputManage.commaLoop, hc, ih, List.filter_cons, hsp]

theorem ne_space_of_not_isspace {x : Char} (hx : InputManage.isspace x = false) : x ≠ ' ' := by
  intro e
  rw [e, isspace_space] at hx
  exact Bool.noConfusion hx

theorem collapseLoop_content_cons (y : Char) (l : List Char) (f : Bool)
    (hy : InputManage.isspace y = false) :
    InputManage.collapseLoop (y :: l) [] f = y :: InputManage.collapseLoop l [] false := by
  have h : InputManage.collapseLoop (y :: l) [] f = InputManage.collapseLoop l [y] false := by
    simp [InputManage.collapseLoop, hy]
  rw [h, collapseLoop_acc]
  rfl

theorem clean_content_end (p : List Char) (x : Char)
    (hx : InputManage.isspace x = false) (hxc : x ≠ ',') :
    InputManage.clean (p ++ [x]) =
      InputManage.stripFront
        (InputManage.collapseLoop (InputManage.commaLoop p) [] false ++ [x]) ∧
    (InputManage.clean (p ++ [x])).getLast? = some x := by
  have hxs : x ≠ ' ' := ne_space_of_not_isspace hx
  have hcomma : InputManage.commaLoop (p ++ [x]) = InputManage.commaLoop p ++ [x] := by
    rw [commaLoop_append]
    simp [InputManage.commaLoop, hxc]
  have hcol : InputManage.collapseLoop (InputManage.commaLoop p ++ [x]) [] false =
      InputManage.collapseLoop (InputManage.commaLoop p) [] false ++ [x] := by
    have h := collapseLoop_through_content (InputManage.commaLoop p) [] [] false x hx
    simpa [InputManage.collapseLoop] using h
  have hfront : ∃ W, InputManage.stripFront
      (InputManage.collapseLoop (InputManage.commaLoop p) [] false ++ [x]) = W ++ [x] := by
    by_cases hC : InputManage.collapseLoop (InputManage.commaLoop p) [] false = []
    · exact ⟨[], by simp [hC, InputManage.stripFront, hxs]⟩
    · exact ⟨_, stripFront_append _ [x] hC⟩
  obtain ⟨W, hW⟩ := hfront
  have hback : InputManage.stripBack (W ++ [x]) = W ++ [x] :=
    stripBack_of_last _ (by simp [hxs])
  have hclean : InputManage.clean (p ++ [x]) = W ++ [x] := by
    show InputManage.stripBack (InputManage.stripFront (InputManage.collapseLoop
      (InputManage.commaLoop (p ++ [x])) [] false)) = _
    rw [hcomma, hcol, hW, hback]
  refine ⟨by rw [hclean, hW], ?_⟩
  rw [hclean]
  simp

theorem clean_content_start (y : Char) (s : List Char)
    (hy : InputManage.isspace y = false) (hyc : y ≠ ',') :
    InputManage.clean (y :: s) =
      InputManage.stripBack (y :: InputManage.collapseLoop (InputManage.commaLoop s) [] false) ∧
    (InputManage.clean (y :: s)).head? = some y := by
  have hys : y ≠ ' ' := ne_space_of_not_isspace hy
  have hcomma : InputManage.commaLoop (y :: s) = y :: InputManage.commaLoop s := by
    simp [InputManage.commaLoop, hyc]
  have hclean : InputManage.clean (y :: s) =
      InputManage.stripBack (y :: InputManage.collapseLoop (InputManage.commaLoop s) [] false) := by
    show InputManage.stripBack (InputManage.stripFront (InputManage.collapseLoop
      (InputManage.commaLoop (y :: s)) [] false)) = _
    rw [hcomma, collapseLoop_content_cons y _ false hy,
      stripFront_of_head _ (by simp [hys])]
  refine ⟨hclean, ?_⟩
  rw [hclean]
  by_cases hV : InputManage.collapseLoop (InputManage.commaLoop s) [] false = []
  · rw [hV, stripBack_of_last _ (by simp [hys])]
    rfl
  · have h := stripBack_append [y] _ hV
    simp only [List.singleton_append] at h
    rw [h]
    rfl

/-- C19.  For every input line the characters of the cleaned line other than
spaces are, in order, the characters of the input that are neither whitespace
nor commas.  Whenever two such characters `x`, `y` follow each other in the
input with only whitespace and commas `m` between them, the cleaned line is the
cleaned text up to `x`, which ends in `x`, then one space if `m` is not empty
and nothing if it is, then the cleaned text from `y` on, which starts with
`y`. -/
theorem clean_preserves_content (line : List Char) :
    (InputManage.clean line).filter (fun c => decide (c ≠ ' ')) =
      line.filter (fun c => !InputManage.isspace c && decide (c ≠ ',')) ∧
    (∀ (p m s : List Char) (x y : Char), line = p ++ [x] ++ m ++ [y] ++ s →
      InputManage.isspace x = false → x ≠ ',' →
      InputManage.isspace y = false → y ≠ ',' →
      (∀ c ∈ m, InputManage.isspace c = true ∨ c = ',') →
      InputManage.clean line =
        InputManage.clean (p ++ [x]) ++ (if m = [] then [] else [' ']) ++
          InputManage.clean (y :: s) ∧
      (InputManage.clean (p ++ [x])).getLast? = some x ∧
      (InputManage.clean (y :: s)).head? = some y) ∧
    InputManage.clean "a,b".toList = "a b".toList ∧
    InputManage.clean "a \t,b".toList = "a b".toList ∧
    InputManage.clean "ab".toList = "ab".toList := by
  refine ⟨?_, ?_, by decide, by decide, by decide⟩
  · show (InputManage.stripBack (InputManage.stripFront (InputManage.collapseLoop
      (InputManage.commaLoop line) [] false))).filter _ = _
    rw [stripBack_filter, stripFront_filter, collapseLoop_filter, commaLoop_filter]
    simp
  · intro p m s x y hline hx hxc hy hyc hm
    obtain ⟨hA, hAlast⟩ := clean_content_end p x hx hxc
    obtain ⟨hB, hBhead⟩ := clean_content_start y s hy hyc
    refine ⟨?_, hAlast, hBhead⟩
    have hM : ∀ c ∈ InputManage.commaLoop m, InputManage.isspace c = true := by
      intro c hc
      rw [commaLoop_eq_map] at hc
      obtain ⟨d, hd, rfl⟩ := List.mem_map.mp hc
      by_cases hdc : d = ','
      · simp [hdc, isspace_space]
      · rcases hm d hd with h | h
        · simpa [hdc] using h
        · exact absurd h hdc
    have hcomma : InputManage.commaLoop line =
        InputManage.commaLoop p ++ x :: (InputManage.commaLoop m ++ y :: InputManage.commaLoop s) := by
      rw [hline]
      simp [commaLoop_append, InputManage.commaLoop, hxc, hyc]
    have hU : InputManage.collapseLoop (InputManage.commaLoop p) [] false ++ [x] ≠ [] := by simp
    have hV : y :: InputManage.collapseLoop (InputManage.commaLoop s) [] false ≠ [] := by simp
    have hmid : InputManage.collapseLoop
        (InputManage.commaLoop m ++ y :: InputManage.commaLoop s) [] false =
        (if m = [] then [] else [' ']) ++
          (y :: InputManage.collapseLoop (InputManage.commaLoop s) [] false) := by
      by_cases hmn : m = []
      · subst hmn
        simp [InputManage.commaLoop, collapseLoop_content_cons y _ false hy]
      · have hMn : InputManage.commaLoop m ≠ [] := by
          rw [commaLoop_eq_map]
          simpa using hmn
        rw [(collapseLoop_whitespace_run _ _ hM).2 hMn, collapseLoop_content_cons y _ true hy]
        simp [hmn]
    have hcol : InputManage.collapseLoop (InputManage.commaLoop line) [] false =
        (InputManage.collapseLoop (InputManage.commaLoop p) [] false ++ [x]) ++
          ((if m = [] then [] else [' ']) ++
            (y :: InputManage.collapseLoop (InputManage.commaLoop s) [] false)) := by
      rw [hcomma, collapseLoop_through_content _ _ _ _ _ hx, collapseLoop_acc, hmid]
    show InputManage.stripBack (InputManage.stripFront (InputManage.collapseLoop
      (InputManage.commaLoop line) [] false)) = _
    rw [hcol, stripFront_append _ _ hU, ← List.append_assoc, stripBack_append _ _ hV, hA, hB]
